import Mathlib

/-!
Shallow embedding of the document-comparison core of this repository.

The repository contains two independently evolved variants of the comparison
pipeline:
  * `src/src/utils/textComparison.js` — a positional element pipeline
    (`performMutualElementComparison` and friends), embedded below in the
    `Positional` namespace;
  * `src/unnamed/part_000` — an alignment-based pipeline (`alignBlocks`,
    `applyMutualImageComparison`, `applyMutualTableComparison`,
    `generateDetailedReport`), embedded at top level and in the `Aligned`
    namespace.

Strings are embedded as `List Char`.  JavaScript numbers are embedded as
`Nat` for counters and as `ℚ` for similarity ratios (the float literal `0.6`
of the source is the exact rational `3/5`; all ratios arising here have tiny
numerators and denominators, where exact rational and double arithmetic
agree).

The character-diff primitive used by the source (`diffChars` of the npm
package `diff`, and `diff_match_patch.diff_main`) is external library code
that is not part of this repository; following the specification (section
4.1, "performs a minimal-edit character diff") it is modelled below by
`diffBy`, a minimal-edit diff computed by the textbook recursion, emitting
one `DiffItem` per character.  Every quantity the claims depend on (the
reconstruction of both inputs, and the total size of the equal spans, which
is determined by minimality) is independent of which minimal-edit script the
library produces.  The recursion carries explicit fuel so that it is
structural; `diffBy` supplies fuel `|a| + |b|`, which is enough for the
fuel-exhaustion branch never to be taken.
-/

set_option maxHeartbeats 1000000

abbrev Str := List Char

/-- Whitespace test used to embed the JavaScript regular expression `\s` and
`String.trim` (the whitespace characters that occur in document text). -/
def isWsChar (c : Char) : Bool :=
  c == ' ' || c == '\t' || c == '\n' || c == '\r'

/-- Embedding of `String.prototype.trim`. -/
def trimStr (s : Str) : Str :=
  ((s.dropWhile isWsChar).reverse.dropWhile isWsChar).reverse

/-- Worker for `collapseWs`; the boolean records whether the previous
character was whitespace, so that each maximal whitespace run is replaced by
a single space, as `replace(/\s+/g, ' ')` does. -/
def collapseWsAux : Bool → Str → Str
  | _, [] => []
  | prevWs, c :: rest =>
    if isWsChar c then
      if prevWs then collapseWsAux true rest
      else ' ' :: collapseWsAux true rest
    else c :: collapseWsAux false rest

/-- Embedding of `replace(/\s+/g, ' ')`. -/
def collapseWs (s : Str) : Str := collapseWsAux false s

/-- The normalisation inside `areTextsEqual` (both source files):
`text.trim().replace(/\s+/g, ' ').toLowerCase()`. -/
def normalizeText (s : Str) : Str :=
  (collapseWs (trimStr s)).map Char.toLower

/-- `areTextsEqual` (both source files): normalised exact equality. -/
def areTextsEqual (text1 text2 : Str) : Bool :=
  normalizeText text1 == normalizeText text2

/-- Character replacement inside `areWordsEquivalent` (part_000): curly
single and double quotes are replaced by a straight double quote, en and em
dashes by a hyphen. -/
def normWordChar (c : Char) : Char :=
  if c == '“' || c == '”' || c == '‘' || c == '’' then '"'
  else if c == '–' || c == '—' then '-'
  else c

/-- `areWordsEquivalent` (part_000): replace quote and dash variants, trim,
lowercase, compare. -/
def areWordsEquivalent (word1 word2 : Str) : Bool :=
  (trimStr (word1.map normWordChar)).map Char.toLower ==
    (trimStr (word2.map normWordChar)).map Char.toLower

/-! ## The diff primitive (modelled from the spec, section 4.1) -/

/-- One atomic diff operation over elements of type `α`: an element present
on both sides, a deletion from the left input, or an insertion from the
right input. -/
inductive DiffItem (α : Type) where
  | both (a b : α)
  | del (a : α)
  | ins (b : α)
deriving DecidableEq, Repr

/-- Number of non-equal operations of a diff script; the quantity minimised
by a minimal-edit diff at single-element granularity. -/
def editCost {α : Type} (l : List (DiffItem α)) : Nat :=
  l.countP fun i => match i with | .both _ _ => false | _ => true

/-- Fuelled minimal-edit diff recursion.  With fuel at least
`|as| + |bs|` the fuel-exhaustion branch is never reached. -/
def diffByFuel {α : Type} (eqb : α → α → Bool) : Nat → List α → List α → List (DiffItem α)
  | _, [], bs => bs.map .ins
  | _, a :: as, [] => (a :: as).map .del
  | 0, as, bs => as.map .del ++ bs.map .ins
  | fuel+1, a :: as, b :: bs =>
    if eqb a b then .both a b :: diffByFuel eqb fuel as bs
    else if editCost (DiffItem.del a :: diffByFuel eqb fuel as (b :: bs)) ≤
            editCost (DiffItem.ins b :: diffByFuel eqb fuel (a :: as) bs)
    then DiffItem.del a :: diffByFuel eqb fuel as (b :: bs)
    else DiffItem.ins b :: diffByFuel eqb fuel (a :: as) bs

/-- Modelled from the spec: the external text-diff primitive (section 4.1 of
the specification; `diffChars` of the npm package `diff`, and
`diff_match_patch.diff_main`, neither of which is repository code).  A
minimal-edit diff of two sequences at single-element granularity. -/
def diffBy {α : Type} (eqb : α → α → Bool) (as bs : List α) : List (DiffItem α) :=
  diffByFuel eqb (as.length + bs.length) as bs

/-- Left projection of a diff script: the elements of `both` and `del`
operations, in order. -/
def diffLeft {α : Type} : List (DiffItem α) → List α
  | [] => []
  | .both a _ :: rest => a :: diffLeft rest
  | .del a :: rest => a :: diffLeft rest
  | .ins _ :: rest => diffLeft rest

/-- Right projection of a diff script: the elements of `both` and `ins`
operations, in order. -/
def diffRight {α : Type} : List (DiffItem α) → List α
  | [] => []
  | .both _ b :: rest => b :: diffRight rest
  | .ins b :: rest => b :: diffRight rest
  | .del _ :: rest => diffRight rest

/-- Number of `both` operations: the total length of the equal spans of a
single-element-granularity diff. -/
def equalCount {α : Type} (l : List (DiffItem α)) : Nat :=
  l.countP fun i => match i with | .both _ _ => true | _ => false

/-! ## compareDocuments (identical in both source files) -/

/-- The `type` field of the segments pushed by `compareDocuments`. -/
inductive SegType where
  | insert
  | delete
  | equal
deriving DecidableEq, Repr

/-- A `{ type, content }` record pushed by `compareDocuments`. -/
structure DiffSeg where
  type : SegType
  content : Str
deriving DecidableEq, Repr

/-- The `{ additions, deletions, changes }` summary record. -/
structure DocSummary where
  additions : Nat
  deletions : Nat
  changes : Nat
deriving DecidableEq, Repr

/-- Result shape of `compareDocuments`. -/
structure CompareDocsResult where
  leftDiffs : List DiffSeg
  rightDiffs : List DiffSeg
  summary : DocSummary
deriving DecidableEq, Repr

/-- `compareDocuments` (both source files): run the character diff, push
delete and equal segments to the left sequence, insert and equal segments to
the right sequence, and count the operations.  The loop over the diff result
is embedded as `filterMap` and `countP` over the same list, which preserves
push order.  The embedded diff emits one operation per character, so segment
contents are single characters; concatenation is unaffected by this
granularity. -/
def compareDocuments (leftText rightText : Str) : CompareDocsResult :=
  let diffs := diffBy (fun a b => a == b) leftText rightText
  let leftDiffs := diffs.filterMap fun d => match d with
    | .del a => some ⟨SegType.delete, [a]⟩
    | .both a _ => some ⟨SegType.equal, [a]⟩
    | .ins _ => none
  let rightDiffs := diffs.filterMap fun d => match d with
    | .ins b => some ⟨SegType.insert, [b]⟩
    | .both a _ => some ⟨SegType.equal, [a]⟩
    | .del _ => none
  let additions := diffs.countP fun d => match d with | .ins _ => true | _ => false
  let deletions := diffs.countP fun d => match d with | .del _ => true | _ => false
  ⟨leftDiffs, rightDiffs, ⟨additions, deletions, additions + deletions⟩⟩

/-! ## getTextSimilarity (part_000) -/

/-- `getTextSimilarity` (part_000): 1 when both inputs are empty, 0 when
exactly one is (JavaScript falsiness of the empty string), otherwise the
total length of the equal spans of the character diff divided by the larger
input length.  The division of the source is exact rational division here
(`mkRat`). -/
def getTextSimilarity (text1 text2 : Str) : ℚ :=
  if text1.isEmpty && text2.isEmpty then 1
  else if text1.isEmpty || text2.isEmpty then 0
  else
    let diffs := diffBy (fun a b => a == b) text1 text2
    let totalLength := max text1.length text2.length
    let unchangedLength := equalCount diffs
    if 0 < totalLength then mkRat unchangedLength totalLength else 0

/-! ## Block alignment (part_000, `alignBlocks`) -/

/-- A block record as produced by `extractBlocks` (part_000): text content
(trimmed), tag name, and the position index used for final ordering.  The
DOM element reference is not part of the comparison data. -/
structure Block where
  text : Str
  tagName : String
  index : Nat
deriving DecidableEq, Repr

/-- The `type` field of an alignment entry. -/
inductive AlignType where
  | equal
  | modified
  | removed
  | added
deriving DecidableEq, Repr

/-- An `{ left, right, type }` alignment entry. -/
structure AlignEntry where
  left : Option Block
  right : Option Block
  type : AlignType
deriving DecidableEq, Repr

/-- The `findIndex` predicate of the exact pass of `alignBlocks`: an unused
right block with the same tag name and normalised-equal text.  Right blocks
are carried with their array position, used blocks are tracked by
position. -/
def exactCand (rightUsed : List Nat) (b : Block) (p : Nat × Block) : Bool :=
  !(rightUsed.contains p.1) && b.tagName == p.2.tagName && areTextsEqual b.text p.2.text

/-- The `findIndex` predicate of the fuzzy pass of `alignBlocks`: an unused
right block with the same tag name and similarity strictly above `0.6`
(the exact rational `3/5`). -/
def fuzzyCand (rightUsed : List Nat) (b : Block) (p : Nat × Block) : Bool :=
  !(rightUsed.contains p.1) && b.tagName == p.2.tagName &&
    decide (mkRat 3 5 < getTextSimilarity b.text p.2.text)

/-- First pass of `alignBlocks`: for each left block in order, find the
first matching unused right block and emit an `equal` entry.  Returns the
entries in push order, the still-unmatched left blocks (with their
positions) in order, and the updated used set.  The source tracks matched
left blocks in the set `leftUsed` consulted by the later passes; returning
the unmatched remainder directly is equivalent because each pass visits
every left block once in order. -/
def alignPass1 : List (Nat × Block) → List (Nat × Block) → List Nat →
    List AlignEntry × List (Nat × Block) × List Nat
  | [], _, used => ([], [], used)
  | (i, b) :: rest, rs, used =>
    match rs.find? (exactCand used b) with
    | some p =>
      let r := alignPass1 rest rs (p.1 :: used)
      (⟨some b, some p.2, AlignType.equal⟩ :: r.1, r.2.1, r.2.2)
    | none =>
      let r := alignPass1 rest rs used
      (r.1, (i, b) :: r.2.1, r.2.2)

/-- Second (fuzzy) pass of `alignBlocks`, over the left blocks the exact
pass left unmatched; emits `modified` entries. -/
def alignPass2 : List (Nat × Block) → List (Nat × Block) → List Nat →
    List AlignEntry × List (Nat × Block) × List Nat
  | [], _, used => ([], [], used)
  | (i, b) :: rest, rs, used =>
    match rs.find? (fuzzyCand used b) with
    | some p =>
      let r := alignPass2 rest rs (p.1 :: used)
      (⟨some b, some p.2, AlignType.modified⟩ :: r.1, r.2.1, r.2.2)
    | none =>
      let r := alignPass2 rest rs used
      (r.1, (i, b) :: r.2.1, r.2.2)

/-- The sort key of the final `alignment.sort`:
`a.left?.index ?? a.right?.index ?? 0`. -/
def alignKey (e : AlignEntry) : Nat :=
  match e.left with
  | some b => b.index
  | none =>
    match e.right with
    | some b => b.index
    | none => 0

/-- The `alignment` array of `alignBlocks` before the final sort: the exact
pass entries, then the fuzzy pass entries over its leftovers, then the
leftover pass (unmatched left blocks become `removed`, unmatched right
blocks `added`), in push order. -/
def alignmentUnsorted (leftBlocks rightBlocks : List Block) : List AlignEntry :=
  let ls := leftBlocks.enum
  let rs := rightBlocks.enum
  let p1 := alignPass1 ls rs []
  let p2 := alignPass2 p1.2.1 rs p1.2.2
  let removedEntries := p2.2.1.map fun q => (⟨some q.2, none, AlignType.removed⟩ : AlignEntry)
  let addedEntries := (rs.filter fun p => !(p2.2.2.contains p.1)).map
    fun p => (⟨none, some p.2, AlignType.added⟩ : AlignEntry)
  p1.1 ++ p2.1 ++ removedEntries ++ addedEntries

/-- `alignBlocks` (part_000): the three passes followed by a stable
ascending sort by original position index.  The JavaScript
`Array.prototype.sort` with comparator `aIndex - bIndex` is a stable sort by
`alignKey`; a stable sort is uniquely determined by its comparator, and it
is embedded here as insertion sort. -/
def alignBlocks (leftBlocks rightBlocks : List Block) : List AlignEntry :=
  (alignmentUnsorted leftBlocks rightBlocks).insertionSort
    fun e1 e2 => alignKey e1 ≤ alignKey e2

/-- The `{ additions, deletions }` accumulator of
`applyMutualBlockComparison`. -/
structure BlockSummary where
  additions : Nat
  deletions : Nat
deriving DecidableEq, Repr

/-- The counting loop of `applyMutualBlockComparison` (part_000): `added`
entries with a right block count one addition, `removed` entries with a left
block one deletion, `modified` entries with both blocks one of each;
`equal` entries count nothing. -/
def blockSummaryOf (alignment : List AlignEntry) : BlockSummary :=
  { additions := alignment.countP fun e =>
      (e.type == AlignType.added && e.right.isSome) ||
        (e.type == AlignType.modified && e.left.isSome && e.right.isSome),
    deletions := alignment.countP fun e =>
      (e.type == AlignType.removed && e.left.isSome) ||
        (e.type == AlignType.modified && e.left.isSome && e.right.isSome) }

/-! ## Text-block alignment for the word-level pass (part_000,
`alignTextBlocks`) -/

/-- A text block for the word-level pass: `{ text, tagName }` (no index
field in the source record). -/
structure TextBlock where
  text : Str
  tagName : String
deriving DecidableEq, Repr

/-- The best-match accumulator loop inside `alignTextBlocks`: scan the right
blocks in order, skipping used ones, keeping the first candidate of each
strictly increasing similarity value above `0.3`. -/
def bestTextMatch (b : TextBlock) (rs : List (Nat × TextBlock)) (used : List Nat) :
    Option (Nat × TextBlock × ℚ) :=
  rs.foldl
    (fun best p =>
      if used.contains p.1 then best
      else if b.tagName == p.2.tagName then
        let sim := getTextSimilarity b.text p.2.text
        let bestSim := match best with | some q => q.2.2 | none => 0
        if bestSim < sim ∧ mkRat 3 10 < sim then some (p.1, p.2, sim) else best
      else best)
    none

/-- An alignment entry of `alignTextBlocks`. -/
structure TextAlignEntry where
  left : TextBlock
  right : TextBlock
  type : AlignType
deriving DecidableEq, Repr

/-- Worker for `alignTextBlocks`: left blocks in order, each taking its best
unused match when one exists (similarity above `0.3`, maximised, first-best
kept on ties); matched pairs with similarity exactly 1 are `equal`,
otherwise `modified`.  Unmatched blocks produce no entry. -/
def alignTextBlocksAux : List TextBlock → List (Nat × TextBlock) → List Nat →
    List TextAlignEntry
  | [], _, _ => []
  | b :: rest, rs, used =>
    match bestTextMatch b rs used with
    | some q =>
      let ty := if q.2.2 == 1 then AlignType.equal else AlignType.modified
      ⟨b, q.2.1, ty⟩ :: alignTextBlocksAux rest rs (q.1 :: used)
    | none => alignTextBlocksAux rest rs used

/-- `alignTextBlocks` (part_000): similarity-maximising alignment with a
`0.3` floor, used only by the word-level comparison stage. -/
def alignTextBlocks (leftBlocks rightBlocks : List TextBlock) : List TextAlignEntry :=
  alignTextBlocksAux leftBlocks rightBlocks.enum []

/-! ## Positional image comparison (part_000, `applyMutualImageComparison`) -/

/-- An image: the `src` and `alt` attributes (absent attributes are the
empty string, as `getAttribute(..) || ""` yields). -/
structure Img where
  src : Str
  alt : Str
deriving DecidableEq, Repr

/-- What `applyMutualImageComparison` does to the image pair at one
position: a left-only image is marked removed, a right-only image added, a
present pair is marked modified on both sides when the `src` attributes
differ and left untouched otherwise.  The `alt` attribute is not consulted
by this stage. -/
inductive ImgPairStatus where
  | unchanged
  | modified
  | leftOnlyRemoved
  | rightOnlyAdded
deriving DecidableEq, Repr

/-- The per-position branch of `applyMutualImageComparison`. -/
def imgPairStatus : Option Img → Option Img → ImgPairStatus
  | some _, none => ImgPairStatus.leftOnlyRemoved
  | none, some _ => ImgPairStatus.rightOnlyAdded
  | some li, some ri =>
    if li.src == ri.src then ImgPairStatus.unchanged else ImgPairStatus.modified
  | none, none => ImgPairStatus.unchanged

/-- Pad two lists to equal length with `none`, pairing positionally: the
embedding of a JavaScript loop `for i in 0..max(len1,len2)` over
possibly-missing indexed elements. -/
def zipAll {α β : Type} : List α → List β → List (Option α × Option β)
  | [], bs => bs.map fun b => (none, some b)
  | a :: as, bs =>
    match bs with
    | [] => (some a, none) :: zipAll as []
    | b :: bs' => (some a, some b) :: zipAll as bs'

/-- `applyMutualImageComparison` (part_000): positional statuses plus the
`{ additions, deletions }` stage summary (removed images count deletions,
added images additions, modified pairs one of each). -/
def applyMutualImageComparison (leftImages rightImages : List Img) :
    List ImgPairStatus × BlockSummary :=
  let statuses := (zipAll leftImages rightImages).map fun p => imgPairStatus p.1 p.2
  ( statuses,
    { additions := statuses.countP fun s =>
        s == ImgPairStatus.rightOnlyAdded || s == ImgPairStatus.modified,
      deletions := statuses.countP fun s =>
        s == ImgPairStatus.leftOnlyRemoved || s == ImgPairStatus.modified } )

/-! ## Positional table comparison (part_000, `compareTableContents`) -/

/-- Table content as rows of cell texts (the `rows` and `cells` collections
of the DOM table). -/
abbrev TableRows := List (List Str)

/-- The per-cell loop of `compareTableContents`: a missing right cell
counts a deletion, a missing left cell an addition, and a present pair
whose trimmed texts are not normalised-equal counts one addition and one
deletion (both cells are marked modified). -/
def compareCellsRow (leftCells rightCells : List Str) : Nat × Nat :=
  (zipAll leftCells rightCells).foldl
    (fun acc p =>
      match p with
      | (some _, none) => (acc.1, acc.2 + 1)
      | (none, some _) => (acc.1 + 1, acc.2)
      | (some lc, some rc) =>
        if areTextsEqual (trimStr lc) (trimStr rc) then acc
        else (acc.1 + 1, acc.2 + 1)
      | (none, none) => acc)
    (0, 0)

/-- `compareTableContents` (part_000): positional row and cell comparison of
one matched table pair, returning `(tableAdditions, tableDeletions)`.  A
missing right row counts one deletion, a missing left row one addition, and
each differing cell pair one addition and one deletion. -/
def compareTableContents (leftRows rightRows : TableRows) : Nat × Nat :=
  (zipAll leftRows rightRows).foldl
    (fun acc p =>
      match p with
      | (some _, none) => (acc.1, acc.2 + 1)
      | (none, some _) => (acc.1 + 1, acc.2)
      | (some lr, some rr) =>
        let cellCounts := compareCellsRow lr rr
        (acc.1 + cellCounts.1, acc.2 + cellCounts.2)
      | (none, none) => acc)
    (0, 0)

/-- The matched-pair and missing-table loop of `applyMutualTableComparison`
(part_000): a left-only table counts one deletion, a right-only table one
addition, and a present pair contributes whatever `compareTableContents`
counted for it. -/
def applyMutualTableComparisonSummary (leftTables rightTables : List TableRows) :
    BlockSummary :=
  (zipAll leftTables rightTables).foldl
    (fun acc p =>
      match p with
      | (some _, none) => { acc with deletions := acc.deletions + 1 }
      | (none, some _) => { acc with additions := acc.additions + 1 }
      | (some lt, some rt) =>
        let c := compareTableContents lt rt
        { additions := acc.additions + c.1, deletions := acc.deletions + c.2 }
      | (none, none) => acc)
    ⟨0, 0⟩

/-! ## Detailed line report (part_000, `generateDetailedReport`) -/

/-- The formatting features gathered by `extractLineFeatures` (part_000):
presence of bold, italic and underline descendants, the inline font size and
the text alignment (empty string when absent). -/
structure Fmt where
  hasBold : Bool
  hasItalic : Bool
  hasUnderline : Bool
  fontSize : String
  textAlign : String
deriving DecidableEq, Repr

/-- Helper for the `on`/`off` rendering inside `compareFormat`. -/
def onOff (b : Bool) : String := if b then "on" else "off"

/-- Helper for the `auto` fallback inside `compareFormat` (JavaScript
`x || "auto"` on a string). -/
def orAuto (s : String) : String := if s == "" then "auto" else s

/-- `compareFormat` (part_000): one human-readable entry per differing
attribute, in the fixed order bold, italic, underline, font-size,
alignment; empty when nothing differs. -/
def compareFormat (fa fb : Fmt) : List String :=
  (if fa.hasBold != fb.hasBold then
    ["bold: " ++ onOff fa.hasBold ++ " → " ++ onOff fb.hasBold] else []) ++
  (if fa.hasItalic != fb.hasItalic then
    ["italic: " ++ onOff fa.hasItalic ++ " → " ++ onOff fb.hasItalic] else []) ++
  (if fa.hasUnderline != fb.hasUnderline then
    ["underline: " ++ onOff fa.hasUnderline ++ " → " ++ onOff fb.hasUnderline] else []) ++
  (if fa.fontSize != fb.fontSize then
    ["font-size: " ++ orAuto fa.fontSize ++ " → " ++ orAuto fb.fontSize] else []) ++
  (if fa.textAlign != fb.textAlign then
    ["alignment: " ++ orAuto fa.textAlign ++ " → " ++ orAuto fb.textAlign] else [])

/-- Inline diff markup at the abstraction level of the claims: the HTML
string built by the source is a concatenation of plain escaped spans,
`git-inline-added` spans and `git-inline-removed` spans; the embedding keeps
the span structure and drops the HTML escaping and whitespace-visualisation
rendering, which are injective presentational encodings of the text. -/
inductive Seg where
  | plain (s : Str)
  | inlineAdded (s : Str)
  | inlineRemoved (s : Str)
deriving DecidableEq, Repr

/-- Whether a markup segment is an inline insert or delete marker. -/
def Seg.isMarker : Seg → Bool
  | .plain _ => false
  | .inlineAdded _ => true
  | .inlineRemoved _ => true

/-- `inlineDiffHtml` (part_000): diff the two texts and render unchanged
characters plain, insertions as added spans and deletions as removed spans
(single-character granularity in this embedding). -/
def inlineDiffHtml (a b : Str) : List Seg :=
  (diffBy (fun x y => x == y) a b).map fun d =>
    match d with
    | .both x _ => Seg.plain [x]
    | .ins y => Seg.inlineAdded [y]
    | .del x => Seg.inlineRemoved [x]

/-- A collected block line of the report: text content (untrimmed
`textContent`) and formatting features, as built by
`collectBlockLinesWithFormat`. -/
structure LineInfo where
  text : Str
  fmt : Fmt
deriving DecidableEq, Repr

/-- Report line status strings of part_000. -/
inductive RStatus where
  | unchanged
  | added
  | removed
  | modified
  | formattingOnly
deriving DecidableEq, Repr

/-- A `{ v1, v2, status, diffHtml, formatChanges }` report line. -/
structure ReportLine where
  v1 : String
  v2 : String
  status : RStatus
  diffHtml : List Seg
  formatChanges : List String
deriving DecidableEq, Repr

/-- The line-emitting walk of `generateDetailedReport` (part_000).  The
source diffs the two text arrays with `diffArrays` under the
`areWordsEquivalent` comparator and then walks the parts with cursors `iL`,
`iR` into the line arrays and 1-based counters `v1`, `v2`; diffing the line
records directly by their text fields performs the same pairing, one part
element at a time.  An added or removed line whose text trims to nothing is
skipped entirely: no line is pushed and the counter is not incremented
(the increments are inside the pushed object literals).  For paired lines,
re-checked text equality with non-empty format differences yields
FORMATTING-ONLY, plain equality UNCHANGED, and remaining pairs with some
non-blank side MODIFIED; a pair that is neither equivalent nor non-blank is
skipped with no counter advance. -/
def reportWalk : List (DiffItem LineInfo) → Nat → Nat → List ReportLine
  | [], _, _ => []
  | .ins r :: rest, v1, v2 =>
    if (trimStr r.text).isEmpty then reportWalk rest v1 v2
    else
      ⟨"", toString v2, RStatus.added, inlineDiffHtml [] r.text, ["added line"]⟩ ::
        reportWalk rest v1 (v2 + 1)
  | .del l :: rest, v1, v2 =>
    if (trimStr l.text).isEmpty then reportWalk rest v1 v2
    else
      ⟨toString v1, "", RStatus.removed, inlineDiffHtml l.text [], ["removed line"]⟩ ::
        reportWalk rest (v1 + 1) v2
  | .both l r :: rest, v1, v2 =>
    let textEqual := areWordsEquivalent l.text r.text
    let fmtChanges := compareFormat l.fmt r.fmt
    if textEqual && !fmtChanges.isEmpty then
      ⟨toString v1, toString v2, RStatus.formattingOnly, [Seg.plain l.text], fmtChanges⟩ ::
        reportWalk rest (v1 + 1) (v2 + 1)
    else if textEqual then
      ⟨toString v1, toString v2, RStatus.unchanged, [Seg.plain l.text], []⟩ ::
        reportWalk rest (v1 + 1) (v2 + 1)
    else if !(trimStr l.text).isEmpty || !(trimStr r.text).isEmpty then
      ⟨toString v1, toString v2, RStatus.modified, inlineDiffHtml l.text r.text, fmtChanges⟩ ::
        reportWalk rest (v1 + 1) (v2 + 1)
    else reportWalk rest v1 v2

/-- The lines section of `generateDetailedReport` (part_000), over collected
block lines. -/
def reportLines (leftLines rightLines : List LineInfo) : List ReportLine :=
  reportWalk
    (diffBy (fun a b => areWordsEquivalent a.text b.text) leftLines rightLines) 1 1

/-- An entry of the tables section of the part_000 detailed report; `row`
and `col` are 1-based ordinals, absent at coarser granularities. -/
structure TableReportEntry where
  table : Nat
  row : Option Nat
  col : Option Nat
  status : RStatus
  diffHtml : Option (List Seg)
deriving DecidableEq, Repr

/-- The cell loop of the tables report: per position, a right-only cell is
ADDED, a left-only cell REMOVED, and a pair of non-blank inequivalent cell
texts MODIFIED with inline markup; pairs where either trimmed text is blank
are silent. -/
def tableReportCells (t r : Nat) (leftCells rightCells : List Str) :
    List TableReportEntry :=
  ((zipAll leftCells rightCells).enum.map fun q =>
    match q.2 with
    | (none, some _) => [⟨t, some r, some (q.1 + 1), RStatus.added, none⟩]
    | (some _, none) => [⟨t, some r, some (q.1 + 1), RStatus.removed, none⟩]
    | (some lc, some rc) =>
      let a := trimStr lc
      let b := trimStr rc
      if !a.isEmpty && !b.isEmpty && !areWordsEquivalent a b then
        [⟨t, some r, some (q.1 + 1), RStatus.modified, some (inlineDiffHtml a b)⟩]
      else []
    | (none, none) => []).flatten

/-- The row loop of the tables report for one matched table pair. -/
def tableReportRows (t : Nat) (leftRows rightRows : TableRows) :
    List TableReportEntry :=
  ((zipAll leftRows rightRows).enum.map fun q =>
    match q.2 with
    | (none, some _) => [⟨t, some (q.1 + 1), none, RStatus.added, none⟩]
    | (some _, none) => [⟨t, some (q.1 + 1), none, RStatus.removed, none⟩]
    | (some lr, some rr) => tableReportCells t (q.1 + 1) lr rr
    | (none, none) => []).flatten

/-- The tables section of `generateDetailedReport` (part_000): positional
table pairing; a right-only table is ADDED, a left-only table REMOVED, and
a matched pair is compared row by row and cell by cell. -/
def tablesReportFor (leftTables rightTables : List TableRows) :
    List TableReportEntry :=
  ((zipAll leftTables rightTables).enum.map fun q =>
    match q.2 with
    | (none, some _) => [⟨q.1 + 1, none, none, RStatus.added, none⟩]
    | (some _, none) => [⟨q.1 + 1, none, none, RStatus.removed, none⟩]
    | (some lt, some rt) => tableReportRows (q.1 + 1) lt rt
    | (none, none) => []).flatten

/-- An entry of the images section of the part_000 detailed report. -/
structure ImageReportEntry where
  index : Nat
  status : RStatus
deriving DecidableEq, Repr

/-- The images section of `generateDetailedReport` (part_000): positions
are paired by `src` attribute lists; JavaScript truthiness makes an empty
`src` behave like a missing image, and only the `src` strings are compared
(REPLACED is embedded as `modified`). -/
def imagesReportFor (leftSrcs rightSrcs : List Str) : List ImageReportEntry :=
  ((List.range (max leftSrcs.length rightSrcs.length)).map fun i =>
    let a := leftSrcs.getD i []
    let b := rightSrcs.getD i []
    if !a.isEmpty && b.isEmpty then [⟨i + 1, RStatus.removed⟩]
    else if a.isEmpty && !b.isEmpty then [⟨i + 1, RStatus.added⟩]
    else if !a.isEmpty && !b.isEmpty && a != b then [⟨i + 1, RStatus.modified⟩]
    else []).flatten

/-! ## Document trees and the part_000 pipeline (`compareHtmlDocuments`) -/

/-- Inline style data of an element that the report reads
(`element.style.fontSize`, `element.style.textAlign`; absent values are the
empty string). -/
structure ElemStyle where
  fontSize : String
  textAlign : String
deriving DecidableEq, Repr

/-- A parsed document node.  The pipeline receives HTML strings and parses
them with the browser DOM; the embedding works on the parsed tree.  Tables
and images are leaves carrying exactly the data the comparison stages read
from them (row and cell texts; `src` and `alt` attributes), so the
inside-a-table skip conditions of the source are vacuous here. -/
inductive HNode where
  | textN (s : Str)
  | elemN (tag : String) (style : ElemStyle) (children : List HNode)
  | imgN (src alt : Str)
  | tableN (rows : TableRows)

/-- A parsed document: the children of the wrapping div. -/
abbrev Doc := List HNode

mutual
/-- DOM `textContent`: concatenation of all text data in the subtree (cell
texts for tables, nothing for images). -/
def nodeText : HNode → Str
  | .textN s => s
  | .imgN _ _ => []
  | .tableN rows => (rows.map fun r => r.flatten).flatten
  | .elemN _ _ cs => nodeTextAll cs
def nodeTextAll : List HNode → Str
  | [] => []
  | n :: rest => nodeText n ++ nodeTextAll rest
end

/-- `textContent` of a whole document. -/
def docText (d : Doc) : Str := (d.map nodeText).flatten

mutual
/-- Whether some descendant element of the forest has one of the given tag
names (the embedding of `element.querySelector(..)` truthiness over
descendants). -/
def forestHasTag (tags : List String) : List HNode → Bool
  | [] => false
  | n :: rest => subtreeHasTag tags n || forestHasTag tags rest
def subtreeHasTag (tags : List String) : HNode → Bool
  | .elemN tag _ cs => tags.contains tag || forestHasTag tags cs
  | _ => false
end

mutual
/-- `querySelectorAll` over a node for a list of tag names: matching
elements in document order, including nested matches. -/
def collectElems (tags : List String) : HNode → List HNode
  | .elemN tag st cs =>
    (if tags.contains tag then [HNode.elemN tag st cs] else []) ++ collectElemsAll tags cs
  | _ => []
def collectElemsAll (tags : List String) : List HNode → List HNode
  | [] => []
  | n :: rest => collectElems tags n ++ collectElemsAll tags rest
end

mutual
/-- All images of a node in document order. -/
def collectImgs : HNode → List Img
  | .imgN src alt => [⟨src, alt⟩]
  | .elemN _ _ cs => collectImgsAll cs
  | _ => []
def collectImgsAll : List HNode → List Img
  | [] => []
  | n :: rest => collectImgs n ++ collectImgsAll rest
end

mutual
/-- All tables of a node in document order. -/
def collectTbls : HNode → List TableRows
  | .tableN rows => [rows]
  | .elemN _ _ cs => collectTblsAll cs
  | _ => []
def collectTblsAll : List HNode → List TableRows
  | [] => []
  | n :: rest => collectTbls n ++ collectTblsAll rest
end

/-- Images of a document. -/
def docImages (d : Doc) : List Img := collectImgsAll d

/-- Tables of a document. -/
def docTables (d : Doc) : List TableRows := collectTblsAll d

/-- The tag name of a node (lower-case in the model throughout). -/
def nodeTag : HNode → String
  | .elemN tag _ _ => tag
  | .imgN _ _ => "img"
  | .tableN _ => "table"
  | .textN _ => ""

/-- The selector of `extractBlocks` (part_000). -/
def extractBlockTags : List String :=
  ["p", "h1", "h2", "h3", "h4", "h5", "h6", "div", "li"]

/-- `extractBlocks` (part_000): all selector matches in document order,
each with trimmed text content, tag name and its position index among the
matches. -/
def extractBlocks (d : Doc) : List Block :=
  (collectElemsAll extractBlockTags d).enum.map fun p =>
    ⟨trimStr (nodeText p.2), nodeTag p.2, p.1⟩

/-- `BLOCK_TAGS` of the report section (part_000). -/
def reportBlockTags : List String :=
  ["p", "h1", "h2", "h3", "h4", "h5", "h6", "li", "pre", "div"]

/-- `extractLineFeatures` (part_000): formatting flags from descendant
`b`/`strong`, `i`/`em`, `u` elements and the inline style fields. -/
def extractLineFeatures : HNode → Fmt
  | .elemN _ st cs =>
    ⟨forestHasTag ["b", "strong"] cs, forestHasTag ["i", "em"] cs,
      forestHasTag ["u"] cs, st.fontSize, st.textAlign⟩
  | _ => ⟨false, false, false, "", ""⟩

/-- `collectBlockLinesWithFormat` (part_000): the report lines of a
document, with untrimmed text content and formatting features. -/
def collectBlockLinesWithFormat (d : Doc) : List LineInfo :=
  (collectElemsAll reportBlockTags d).map fun n => ⟨nodeText n, extractLineFeatures n⟩

/-- The detailed report record `{ lines, tables, images }`. -/
structure DetailedReport where
  lines : List ReportLine
  tables : List TableReportEntry
  images : List ImageReportEntry
deriving DecidableEq, Repr

/-- `generateDetailedReport` (part_000) over parsed documents. -/
def generateDetailedReport (leftHtml rightHtml : Doc) : DetailedReport :=
  { lines := reportLines (collectBlockLinesWithFormat leftHtml)
      (collectBlockLinesWithFormat rightHtml),
    tables := tablesReportFor (docTables leftHtml) (docTables rightHtml),
    images := imagesReportFor ((docImages leftHtml).map Img.src)
      ((docImages rightHtml).map Img.src) }

/-- The selector of `getTextBlocksForWordComparison` (part_000) — no
`div`. -/
def wordBlockTags : List String := ["p", "h1", "h2", "h3", "h4", "h5", "h6", "li"]

/-- Whether the block stage marked this block in the left document: it is
the left side of a `removed` or `modified` alignment entry.  Block records
carry their unique position index, which stands for DOM element
identity. -/
def leftBlockMarked (alignment : List AlignEntry) (b : Block) : Bool :=
  alignment.any fun e =>
    (e.type == AlignType.removed || e.type == AlignType.modified) && e.left == some b

/-- Whether the block stage marked this block in the right document. -/
def rightBlockMarked (alignment : List AlignEntry) (b : Block) : Bool :=
  alignment.any fun e =>
    (e.type == AlignType.added || e.type == AlignType.modified) && e.right == some b

/-- `getTextBlocksForWordComparison` (part_000), for one side: the word
selector matches, skipping blocks the block stage marked and blocks with
empty trimmed text.  The word selector is a subset of the block-stage
selector, so a word block equals the extracted block at the same element,
identified through its index. -/
def getTextBlocksForWordComparison (d : Doc) (marked : Block → Bool) : List TextBlock :=
  ((extractBlocks d).filter fun b =>
    wordBlockTags.contains b.tagName && !b.text.isEmpty && !(marked b)).map
    fun b => ⟨b.text, b.tagName⟩

/-- The counting part of `applyMutualWordLevelComparison` (part_000): for
each `modified` aligned text-block pair, run the diff and count inserted
and deleted operations (single-character granularity in this embedding). -/
def wordLevelSummary (leftBlocks rightBlocks : List TextBlock) : BlockSummary :=
  (alignTextBlocks leftBlocks rightBlocks).foldl
    (fun acc e =>
      if e.type == AlignType.modified then
        let diffs := diffBy (fun a b => a == b) e.left.text e.right.text
        { additions := acc.additions +
            diffs.countP (fun d => match d with | .ins _ => true | _ => false),
          deletions := acc.deletions +
            diffs.countP (fun d => match d with | .del _ => true | _ => false) }
      else acc)
    ⟨0, 0⟩

/-- Output shape of `compareHtmlDocuments`: both views (the model carries
the document content; the class annotations and inline markup the stages
add to the views preserve the content and are not part of any claim),
the aggregate summary and the detailed report. -/
structure HtmlCompareOutput where
  leftDiffs : List (SegType × Doc)
  rightDiffs : List (SegType × Doc)
  summary : DocSummary
  detailed : DetailedReport

/-- The output consisting of both inputs verbatim, an all-zero summary and
an empty detailed report: produced by the identical-documents fast path,
by the missing-browser-environment branch, and by the outer catch. -/
def originalContentOutput (leftHtml rightHtml : Doc) : HtmlCompareOutput :=
  { leftDiffs := [(SegType.equal, leftHtml)],
    rightDiffs := [(SegType.equal, rightHtml)],
    summary := ⟨0, 0, 0⟩,
    detailed := ⟨[], [], []⟩ }

/-- The full else-branch pipeline of `compareHtmlDocuments` (part_000):
block alignment, image stage, table stage, word-level stage, summed
summary, detailed report.  The views pass the document content through
(annotation markup is not modelled). -/
def fullPipeline (leftHtml rightHtml : Doc) : HtmlCompareOutput :=
  let leftBlocks := extractBlocks leftHtml
  let rightBlocks := extractBlocks rightHtml
  let alignment := alignBlocks leftBlocks rightBlocks
  let blockSummary := blockSummaryOf alignment
  let imageSummary := (applyMutualImageComparison (docImages leftHtml)
    (docImages rightHtml)).2
  let tableSummary := applyMutualTableComparisonSummary (docTables leftHtml)
    (docTables rightHtml)
  let textSummary := wordLevelSummary
    (getTextBlocksForWordComparison leftHtml (leftBlockMarked alignment))
    (getTextBlocksForWordComparison rightHtml (rightBlockMarked alignment))
  let additions := blockSummary.additions + imageSummary.additions +
    tableSummary.additions + textSummary.additions
  let deletions := blockSummary.deletions + imageSummary.deletions +
    tableSummary.deletions + textSummary.deletions
  { leftDiffs := [(SegType.equal, leftHtml)],
    rightDiffs := [(SegType.equal, rightHtml)],
    summary := ⟨additions, deletions, additions + deletions⟩,
    detailed := generateDetailedReport leftHtml rightHtml }

/-- The execution environment: whether the global `document` object exists.
`extractPlainText` calls `document.createElement` unconditionally, so in a
non-browser environment the first extraction throws before the explicit
`typeof document` guard is reached. -/
structure Env where
  hasDocument : Bool
deriving DecidableEq, Repr

/-- `extractPlainText` (part_000) with its environment dependence: parsing
requires the DOM; without it a reference error escapes to the caller. -/
def extractPlainTextE (env : Env) (d : Doc) : Except Unit Str :=
  if env.hasDocument then Except.ok (docText d) else Except.error ()

/-- The body of the `try` block of `compareHtmlDocuments` (part_000):
extract both plain texts (which can throw), short-circuit on trimmed
equality with the verbatim zero-change output, return the same shape when
no browser environment is available, and otherwise run the staged
pipeline. -/
def compareHtmlBody (env : Env) (leftHtml rightHtml : Doc) :
    Except Unit HtmlCompareOutput := do
  let leftText ← extractPlainTextE env leftHtml
  let rightText ← extractPlainTextE env rightHtml
  if trimStr leftText == trimStr rightText then
    return originalContentOutput leftHtml rightHtml
  else if !env.hasDocument then
    return originalContentOutput leftHtml rightHtml
  else
    return fullPipeline leftHtml rightHtml

/-- `compareHtmlDocuments` (part_000): the `try`/`catch` wrapper; any error
escaping the body is converted to the original-content degraded output. -/
def compareHtmlDocuments (env : Env) (leftHtml rightHtml : Doc) : HtmlCompareOutput :=
  match compareHtmlBody env leftHtml rightHtml with
  | Except.ok out => out
  | Except.error _ => originalContentOutput leftHtml rightHtml

/-! ## The positional element pipeline (`src/src/utils/textComparison.js`) -/

namespace Positional

/-- The structured content behind an extracted element record: the DOM
element data the comparison branches read (table rows; image `src` and
`alt`). -/
inductive ElemContent where
  | textC
  | tableC (rows : TableRows)
  | imageC (src alt : Str)
deriving DecidableEq, Repr

/-- `extractTableText`: rows joined by newlines, cell texts (trimmed)
joined by `" | "`. -/
def extractTableText (rows : TableRows) : Str :=
  List.intercalate ['\n'] (rows.map fun r =>
    List.intercalate [' ', '|', ' '] (r.map trimStr))

/-- Table text of an element content value (empty for non-tables; the
source only calls this on tables). -/
def contentTableText : ElemContent → Str
  | .tableC rows => extractTableText rows
  | _ => []

/-- `compareTableContent`: exact equality of the two table texts. -/
def compareTableContent (c1 c2 : ElemContent) : Bool :=
  contentTableText c1 == contentTableText c2

/-- The `src` attribute behind an element record (images only). -/
def contentSrc : ElemContent → Str
  | .imageC src _ => src
  | _ => []

/-- The `alt` attribute behind an element record (images only). -/
def contentAlt : ElemContent → Str
  | .imageC _ alt => alt
  | _ => []

/-- An element record of `extractAllElements`: the flags and texts the
comparison reads, plus the underlying content.  (The `html` and `index`
fields of the source record are presentational and positional bookkeeping
not read by the comparison branches.) -/
structure Elem where
  content : ElemContent
  text : Str
  tagName : String
  isEmpty : Bool
  isTable : Bool
  isImage : Bool
deriving DecidableEq, Repr

/-- `areElementsEqual`: tables by table text, images by `src` and `alt`,
anything else by normalised text equality. -/
def areElementsEqual (e1 e2 : Elem) : Bool :=
  if e1.isTable && e2.isTable then compareTableContent e1.content e2.content
  else if e1.isImage && e2.isImage then
    contentSrc e1.content == contentSrc e2.content &&
      contentAlt e1.content == contentAlt e2.content
  else areTextsEqual e1.text e2.text

/-- The `highlight` values assigned by `performMutualElementComparison`. -/
inductive Highlight where
  | none
  | added
  | removed
  | modified
  | emptySpaceAdded
  | emptySpaceRemoved
deriving DecidableEq, Repr

/-- The `placeholderType` values. -/
inductive PlaceholderType where
  | tableP
  | imageP
  | textP
deriving DecidableEq, Repr

/-- `isTable ? 'table' : isImage ? 'image' : 'text'`. -/
def placeholderTypeOf (e : Elem) : PlaceholderType :=
  if e.isTable then PlaceholderType.tableP
  else if e.isImage then PlaceholderType.imageP
  else PlaceholderType.textP

/-- Inline markup segments of `applyDiffHighlighting` in this file: plain
text, an added span, a removed span, or a dimmed bracketed placeholder span
showing text that changed on the other side. -/
inductive PSeg where
  | plain (s : Str)
  | added (s : Str)
  | removed (s : Str)
  | placeholderSeg (s : Str)
deriving DecidableEq, Repr

/-- Which view a markup string is rendered for. -/
inductive Side where
  | leftS
  | rightS
deriving DecidableEq, Repr

/-- `applyDiffHighlighting`: unchanged text stays plain; an insertion is an
added span on the right view and a bracketed placeholder on the left view;
a deletion is a removed span on the left view and a bracketed placeholder
on the right view. -/
def applyDiffHighlighting (diffs : List (DiffItem Char)) (side : Side) : List PSeg :=
  diffs.map fun d =>
    match d, side with
    | .both x _, _ => PSeg.plain [x]
    | .ins y, Side.rightS => PSeg.added [y]
    | .ins y, Side.leftS => PSeg.placeholderSeg [y]
    | .del x, Side.leftS => PSeg.removed [x]
    | .del x, Side.rightS => PSeg.placeholderSeg [x]

/-- `performWordLevelDiff`: diff the plain texts of the two elements and
render both sides. -/
def performWordLevelDiff (leftText rightText : Str) : List PSeg × List PSeg :=
  let diffs := diffBy (fun a b => a == b) leftText rightText
  (applyDiffHighlighting diffs Side.leftS, applyDiffHighlighting diffs Side.rightS)

/-- A processed element record: the element (absent for created
placeholders), its highlight, placeholder data, and replacement markup for
word-level diffed text blocks. -/
structure ProcElem where
  elem : Option Elem
  highlight : Highlight
  placeholderText : Option Str
  placeholderType : Option PlaceholderType
  processedHtml : Option (List PSeg)
deriving DecidableEq, Repr

/-- A processed element with no annotation. -/
def plainProc (e : Elem) : ProcElem := ⟨some e, Highlight.none, none, none, none⟩

/-- The per-position branch of `performMutualElementComparison`, returning
the processed pair and its `(additions, deletions)` contribution.  Branch
order follows the source: matched tables, matched images, both-empty,
one-side-empty placeholders, equal elements, then modified (structural
pairs marked without inline markup, text pairs word-diffed). -/
def mutualStep : Option Elem → Option Elem → ProcElem × ProcElem × Nat × Nat
  | some l, some r =>
    if l.isTable && r.isTable then
      if compareTableContent l.content r.content then
        (plainProc l, plainProc r, 0, 0)
      else
        (⟨some l, Highlight.modified, none, none, none⟩,
         ⟨some r, Highlight.modified, none, none, none⟩, 1, 1)
    else if l.isImage && r.isImage then
      if contentSrc l.content == contentSrc r.content &&
          contentAlt l.content == contentAlt r.content then
        (plainProc l, plainProc r, 0, 0)
      else
        (⟨some l, Highlight.modified, none, none, none⟩,
         ⟨some r, Highlight.modified, none, none, none⟩, 1, 1)
    else if l.isEmpty && r.isEmpty then
      (plainProc l, plainProc r, 0, 0)
    else if l.isEmpty && !r.isEmpty then
      (⟨some l, Highlight.emptySpaceAdded, some r.text, some (placeholderTypeOf r), none⟩,
       ⟨some r, Highlight.added, none, none, none⟩, 1, 0)
    else if !l.isEmpty && r.isEmpty then
      (⟨some l, Highlight.removed, none, none, none⟩,
       ⟨some r, Highlight.emptySpaceRemoved, some l.text, some (placeholderTypeOf l), none⟩,
       0, 1)
    else if areElementsEqual l r then
      (plainProc l, plainProc r, 0, 0)
    else if l.isTable || r.isTable || l.isImage || r.isImage then
      (⟨some l, Highlight.modified, none, none, none⟩,
       ⟨some r, Highlight.modified, none, none, none⟩, 1, 1)
    else
      let marked := performWordLevelDiff l.text r.text
      (⟨some l, Highlight.modified, none, none, some marked.1⟩,
       ⟨some r, Highlight.modified, none, none, some marked.2⟩, 1, 1)
  | some l, none =>
    (⟨some l, Highlight.removed, none, none, none⟩,
     ⟨none, Highlight.emptySpaceRemoved, some l.text, some (placeholderTypeOf l), none⟩,
     0, 1)
  | none, some r =>
    (⟨none, Highlight.emptySpaceAdded, some r.text, some (placeholderTypeOf r), none⟩,
     ⟨some r, Highlight.added, none, none, none⟩, 1, 0)
  | none, none =>
    (⟨none, Highlight.none, none, none, none⟩, ⟨none, Highlight.none, none, none, none⟩, 0, 0)

/-- `performMutualElementComparison`: positional pairing of the two element
lists, one processed record per side per position, and the summed
`{ additions, deletions, changes }` summary. -/
def performMutualElementComparison (leftElements rightElements : List Elem) :
    List ProcElem × List ProcElem × DocSummary :=
  let steps := (zipAll leftElements rightElements).map fun p => mutualStep p.1 p.2
  let additions := (steps.map fun s => s.2.2.1).sum
  let deletions := (steps.map fun s => s.2.2.2).sum
  (steps.map fun s => s.1, steps.map fun s => s.2.1,
    ⟨additions, deletions, additions + deletions⟩)

/-- The per-position branch of the image section of this file's
`generateDetailedReport`: matched images are compared by `src` alone. -/
def imageReportStep (i : Nat) : Option Elem → Option Elem → List ImageReportEntry
  | some l, some r =>
    if l.isImage && r.isImage then
      [⟨i + 1, if contentSrc l.content == contentSrc r.content
        then RStatus.unchanged else RStatus.modified⟩]
    else if l.isImage then [⟨i + 1, RStatus.removed⟩]
    else if r.isImage then [⟨i + 1, RStatus.added⟩]
    else []
  | some l, none => if l.isImage then [⟨i + 1, RStatus.removed⟩] else []
  | none, some r => if r.isImage then [⟨i + 1, RStatus.added⟩] else []
  | none, none => []

/-- The per-position branch of the table section of this file's
`generateDetailedReport`. -/
def tableReportStep (i : Nat) : Option Elem → Option Elem → List TableReportEntry
  | some l, some r =>
    if l.isTable && r.isTable then
      [⟨i + 1, none, none,
        if compareTableContent l.content r.content then RStatus.unchanged
        else RStatus.modified,
        some (if compareTableContent l.content r.content then [Seg.plain l.text]
          else inlineDiffHtml l.text r.text)⟩]
    else if l.isTable then
      [⟨i + 1, none, none, RStatus.removed, some [Seg.inlineRemoved l.text]⟩]
    else if r.isTable then
      [⟨i + 1, none, none, RStatus.added, some [Seg.inlineAdded r.text]⟩]
    else []
  | some l, none =>
    if l.isTable then [⟨i + 1, none, none, RStatus.removed, some [Seg.inlineRemoved l.text]⟩]
    else []
  | none, some r =>
    if r.isTable then [⟨i + 1, none, none, RStatus.added, some [Seg.inlineAdded r.text]⟩]
    else []
  | none, none => []

/-- The text-line branch of this file's `generateDetailedReport`: both line
numbers are the position ordinal (no per-side counters in this variant). -/
def lineReportStep (i : Nat) : Option Elem → Option Elem → List ReportLine
  | some l, some r =>
    if areTextsEqual l.text r.text then
      [⟨toString (i + 1), toString (i + 1), RStatus.unchanged, [Seg.plain l.text], []⟩]
    else
      [⟨toString (i + 1), toString (i + 1), RStatus.modified,
        inlineDiffHtml l.text r.text, ["Content modified"]⟩]
  | some l, none =>
    [⟨toString (i + 1), "", RStatus.removed, [Seg.inlineRemoved l.text], ["Line removed"]⟩]
  | none, some r =>
    [⟨"", toString (i + 1), RStatus.added, [Seg.inlineAdded r.text], ["Line added"]⟩]
  | none, none => []

/-- Whether a position is routed to the table branch. -/
def posIsTable (p : Option Elem × Option Elem) : Bool :=
  (p.1.map Elem.isTable).getD false || (p.2.map Elem.isTable).getD false

/-- Whether a position is routed to the image branch. -/
def posIsImage (p : Option Elem × Option Elem) : Bool :=
  (p.1.map Elem.isImage).getD false || (p.2.map Elem.isImage).getD false

/-- `generateDetailedReport` of this file: positional walk over the element
pair list; a table on either side routes the position to the tables report,
else an image routes it to the images report, else a text report line is
produced. -/
def generateDetailedReport (leftElements rightElements : List Elem) : DetailedReport :=
  let pairs := (zipAll leftElements rightElements).enum
  { lines := (pairs.map fun q =>
      if posIsTable q.2 || posIsImage q.2 then []
      else lineReportStep q.1 q.2.1 q.2.2).flatten,
    tables := (pairs.map fun q =>
      if posIsTable q.2 then tableReportStep q.1 q.2.1 q.2.2 else []).flatten,
    images := (pairs.map fun q =>
      if !posIsTable q.2 && posIsImage q.2 then imageReportStep q.1 q.2.1 q.2.2
      else []).flatten }

end Positional


/-! ## Concrete inputs used by the analyses below -/

/-- A left block for the fuzzy-pass analysis. -/
def fuzzyLeftBlock : Block := ⟨"aaaaaaaaaa".toList, "p", 0⟩


/-- The first right-document candidate: similarity 7/10 to
`fuzzyLeftBlock` — above the 0.6 floor but not maximal. -/
def fuzzyRightNear : Block := ⟨"aaaaaaaxxx".toList, "p", 0⟩


/-- The second right-document candidate: similarity 9/10 to
`fuzzyLeftBlock` — the unique maximizer. -/
def fuzzyRightBest : Block := ⟨"aaaaaaaaax".toList, "p", 1⟩


/-- A left table element with two cells, for the C4 witness. -/
def tableElemL : Positional.Elem :=
  ⟨Positional.ElemContent.tableC [[['a'], ['b']]],
    Positional.extractTableText [[['a'], ['b']]], "table", false, true, false⟩


/-- A right table element whose two cells both differ from `tableElemL`. -/
def tableElemR : Positional.Elem :=
  ⟨Positional.ElemContent.tableC [[['x'], ['y']]],
    Positional.extractTableText [[['x'], ['y']]], "table", false, true, false⟩


/-- A left image element for the C6 witness. -/
def imageElemL : Positional.Elem :=
  ⟨Positional.ElemContent.imageC ['s'] ['a'], ['a'], "img", false, false, true⟩


/-- A right image element with the same source but different alt text. -/
def imageElemR : Positional.Elem :=
  ⟨Positional.ElemContent.imageC ['s'] ['b'], ['b'], "img", false, false, true⟩

/-! ## Theorems -/

theorem diffLeft_append {α : Type} (l1 l2 : List (DiffItem α)) :
    diffLeft (l1 ++ l2) = diffLeft l1 ++ diffLeft l2 := by
  induction l1 with
  | nil => rfl
  | cons i rest ih => cases i <;> simp [diffLeft, ih]

theorem diffRight_append {α : Type} (l1 l2 : List (DiffItem α)) :
    diffRight (l1 ++ l2) = diffRight l1 ++ diffRight l2 := by
  induction l1 with
  | nil => rfl
  | cons i rest ih => cases i <;> simp [diffRight, ih]

theorem diffLeft_map_del {α : Type} (as : List α) :
    diffLeft (as.map DiffItem.del) = as := by
  induction as with
  | nil => rfl
  | cons a as ih => simp [diffLeft, ih]

theorem diffLeft_map_ins {α : Type} (bs : List α) :
    diffLeft (bs.map DiffItem.ins) = [] := by
  induction bs with
  | nil => rfl
  | cons b bs ih => simp [diffLeft, ih]

theorem diffRight_map_ins {α : Type} (bs : List α) :
    diffRight (bs.map DiffItem.ins) = bs := by
  induction bs with
  | nil => rfl
  | cons b bs ih => simp [diffRight, ih]

theorem diffRight_map_del {α : Type} (as : List α) :
    diffRight (as.map DiffItem.del) = [] := by
  induction as with
  | nil => rfl
  | cons a as ih => simp [diffRight, ih]

/-- The left input is reconstructed from any fuelled diff script. -/
theorem diffLeft_diffByFuel {α : Type} (eqb : α → α → Bool) :
    ∀ (fuel : Nat) (as bs : List α), diffLeft (diffByFuel eqb fuel as bs) = as := by
  intro fuel as bs
  induction fuel, as, bs using diffByFuel.induct eqb with
  | case1 fuel bs => simp [diffByFuel, diffLeft_map_ins]
  | case2 fuel a as => simp [diffByFuel, diffLeft, diffLeft_map_del]
  | case3 as bs h1 h2 =>
    simp [diffByFuel, diffLeft_append, diffLeft_map_del, diffLeft_map_ins]
  | case4 fuel a as b bs h ih => simp [diffByFuel, h, diffLeft, ih]
  | case5 fuel a as b bs h hle ih1 ih2 => simp [diffByFuel, h, hle, diffLeft, ih1]
  | case6 fuel a as b bs h hle ih1 ih2 => simp [diffByFuel, h, hle, diffLeft, ih2]

/-- The right input is reconstructed from any fuelled diff script. -/
theorem diffRight_diffByFuel {α : Type} (eqb : α → α → Bool) :
    ∀ (fuel : Nat) (as bs : List α), diffRight (diffByFuel eqb fuel as bs) = bs := by
  intro fuel as bs
  induction fuel, as, bs using diffByFuel.induct eqb with
  | case1 fuel bs => simp [diffByFuel, diffRight_map_ins]
  | case2 fuel a as => simp [diffByFuel, diffRight, diffRight_map_del]
  | case3 as bs h1 h2 =>
    simp [diffByFuel, diffRight_append, diffRight_map_del, diffRight_map_ins]
  | case4 fuel a as b bs h ih => simp [diffByFuel, h, diffRight, ih]
  | case5 fuel a as b bs h hle ih1 ih2 => simp [diffByFuel, h, hle, diffRight, ih1]
  | case6 fuel a as b bs h hle ih1 ih2 => simp [diffByFuel, h, hle, diffRight, ih2]

theorem diffLeft_diffBy {α : Type} (eqb : α → α → Bool) (as bs : List α) :
    diffLeft (diffBy eqb as bs) = as :=
  diffLeft_diffByFuel eqb _ as bs

theorem diffRight_diffBy {α : Type} (eqb : α → α → Bool) (as bs : List α) :
    diffRight (diffBy eqb as bs) = bs :=
  diffRight_diffByFuel eqb _ as bs

/-- Every `both` operation of a fuelled diff pairs elements the comparator
accepted. -/
theorem diffByFuel_both_eqb {α : Type} (eqb : α → α → Bool) :
    ∀ (fuel : Nat) (as bs : List α) (a b : α),
      DiffItem.both a b ∈ diffByFuel eqb fuel as bs → eqb a b = true := by
  intro fuel as bs
  induction fuel, as, bs using diffByFuel.induct eqb with
  | case1 fuel bs =>
    intro a b hmem
    simp [diffByFuel] at hmem
  | case2 fuel a as =>
    intro x y hmem
    simp [diffByFuel] at hmem
  | case3 as bs h1 h2 =>
    intro a b hmem
    simp only [diffByFuel, List.mem_append, List.mem_map] at hmem
    rcases hmem with ⟨c, _, hc⟩ | ⟨c, _, hc⟩ <;> cases hc
  | case4 fuel a as b bs h ih =>
    intro x y hmem
    simp only [diffByFuel, h, if_true] at hmem
    rcases List.mem_cons.mp hmem with heq | hmem2
    · cases heq; exact h
    · exact ih x y hmem2
  | case5 fuel a as b bs h hle ih1 ih2 =>
    intro x y hmem
    simp only [diffByFuel, h, if_false, hle, if_true] at hmem
    rcases List.mem_cons.mp hmem with heq | hmem2
    · cases heq
    · exact ih1 x y hmem2
  | case6 fuel a as b bs h hle ih1 ih2 =>
    intro x y hmem
    simp only [diffByFuel, h, if_false, hle] at hmem
    rcases List.mem_cons.mp hmem with heq | hmem2
    · cases heq
    · exact ih2 x y hmem2

/-- With a reflexive comparator, diffing a list against itself yields only
`both` operations (one per element). -/
theorem diffByFuel_self {α : Type} (eqb : α → α → Bool)
    (hrefl : ∀ a : α, eqb a a = true) :
    ∀ (fuel : Nat) (as : List α), as.length ≤ fuel →
      diffByFuel eqb fuel as as = as.map fun a => DiffItem.both a a := by
  intro fuel
  induction fuel with
  | zero =>
    intro as hlen
    have : as = [] := List.eq_nil_of_length_eq_zero (Nat.le_zero.mp hlen)
    subst this
    rfl
  | succ n ih =>
    intro as hlen
    cases as with
    | nil => rfl
    | cons a rest =>
      have : eqb a a = true := hrefl a
      simp only [diffByFuel, this, if_true, List.map_cons]
      have hlen2 : rest.length ≤ n := by
        simpa [List.length_cons, Nat.succ_le_succ_iff] using hlen
      rw [ih rest hlen2]

theorem diffBy_self {α : Type} (eqb : α → α → Bool)
    (hrefl : ∀ a : α, eqb a a = true) (as : List α) :
    diffBy eqb as as = as.map fun a => DiffItem.both a a :=
  diffByFuel_self eqb hrefl _ as (by omega)

/-- The equal spans of a diff script never exceed its left projection in
total length. -/
theorem equalCount_le_diffLeft_length {α : Type} (l : List (DiffItem α)) :
    equalCount l ≤ (diffLeft l).length := by
  induction l with
  | nil => simp [equalCount, diffLeft]
  | cons i rest ih =>
    cases i <;> simp [equalCount, diffLeft, List.countP_cons] at * <;> omega

theorem equalCount_map_both {α : Type} (as : List α) :
    equalCount (as.map fun a => DiffItem.both a a) = as.length := by
  induction as with
  | nil => rfl
  | cons a rest ih =>
    have hstep : equalCount ((a :: rest).map fun a => DiffItem.both a a)
        = equalCount (rest.map fun a => DiffItem.both a a) + 1 := by
      simp [equalCount, List.countP_cons]
    rw [hstep, ih, List.length_cons]


theorem flatten_leftSegs (l : List (DiffItem Char)) :
    ((l.filterMap fun d => match d with
      | .del a => some (⟨SegType.delete, [a]⟩ : DiffSeg)
      | .both a _ => some ⟨SegType.equal, [a]⟩
      | .ins _ => none).map DiffSeg.content).flatten = diffLeft l := by
  induction l with
  | nil => rfl
  | cons d rest ih => cases d <;> simp [diffLeft, ih]

theorem flatten_rightSegs (l : List (DiffItem Char))
    (hboth : ∀ a b : Char, DiffItem.both a b ∈ l → a = b) :
    ((l.filterMap fun d => match d with
      | .ins b => some (⟨SegType.insert, [b]⟩ : DiffSeg)
      | .both a _ => some ⟨SegType.equal, [a]⟩
      | .del _ => none).map DiffSeg.content).flatten = diffRight l := by
  induction l with
  | nil => rfl
  | cons d rest ih =>
    have hrest : ∀ a b : Char, DiffItem.both a b ∈ rest → a = b := by
      intro a b hm
      exact hboth a b (List.mem_cons_of_mem d hm)
    cases d with
    | both a b =>
      have hab : a = b := hboth a b (List.mem_cons_self _ _)
      subst hab
      simp [diffRight, ih hrest]
    | del a => simp [diffRight, ih hrest]
    | ins b => simp [diffRight, ih hrest]

/-- C1: for every pair of input strings, the diff produced by
`compareDocuments` round-trips losslessly — concatenating the contents of
the left-side sequence (`equal` and `delete` segments, in order) yields the
left input exactly, and concatenating the contents of the right-side
sequence (`equal` and `insert` segments) yields the right input exactly,
including for empty inputs. -/
theorem compareDocuments_roundtrip (a b : Str) :
    ((compareDocuments a b).leftDiffs.map DiffSeg.content).flatten = a ∧
    ((compareDocuments a b).rightDiffs.map DiffSeg.content).flatten = b := by
  constructor
  · have h := flatten_leftSegs (diffBy (fun x y => x == y) a b)
    simpa [compareDocuments, diffLeft_diffBy] using h
  · have hboth : ∀ x y : Char, DiffItem.both x y ∈ diffBy (fun x y => x == y) a b → x = y := by
      intro x y hm
      exact eq_of_beq (diffByFuel_both_eqb _ _ a b x y hm)
    have h := flatten_rightSegs (diffBy (fun x y => x == y) a b) hboth
    simpa [compareDocuments, diffRight_diffBy] using h

theorem equalCount_diffBy_le_left (a b : Str) :
    equalCount (diffBy (fun x y => x == y) a b) ≤ a.length := by
  have h := equalCount_le_diffLeft_length (diffBy (fun x y => x == y) a b)
  rwa [diffLeft_diffBy] at h

/-- C7: the similarity scorer returns 1 when both inputs are empty, 0 when
exactly one input is empty, and otherwise the total length of the equal
spans of the text diff divided by the larger input length; consequently the
result always lies in `[0, 1]`, and the similarity of any non-empty string
with itself is 1. -/
theorem getTextSimilarity_spec :
    (∀ a b : Str, 0 ≤ getTextSimilarity a b ∧ getTextSimilarity a b ≤ 1) ∧
    getTextSimilarity [] [] = 1 ∧
    (∀ a : Str, a ≠ [] → getTextSimilarity [] a = 0 ∧ getTextSimilarity a [] = 0) ∧
    (∀ a : Str, a ≠ [] → getTextSimilarity a a = 1) ∧
    (∀ a b : Str, a ≠ [] → b ≠ [] →
      getTextSimilarity a b =
        mkRat (equalCount (diffBy (fun x y => x == y) a b)) (max a.length b.length)) := by
  have hval : ∀ a b : Str, a ≠ [] → b ≠ [] →
      getTextSimilarity a b =
        mkRat (equalCount (diffBy (fun x y => x == y) a b)) (max a.length b.length) := by
    intro a b ha hb
    have hpos : 0 < max a.length b.length := by
      cases a with
      | nil => exact absurd rfl ha
      | cons x xs => simp [Nat.lt_of_lt_of_le (Nat.succ_pos xs.length) (Nat.le_max_left _ _)]
    simp [getTextSimilarity, List.isEmpty_iff, ha, hb, hpos]
  refine ⟨?_, by simp [getTextSimilarity], ?_, ?_, hval⟩
  · intro a b
    by_cases ha : a = []
    · subst ha
      by_cases hb : b = []
      · subst hb; simp [getTextSimilarity]
      · simp [getTextSimilarity, List.isEmpty_iff, hb]
    · by_cases hb : b = []
      · subst hb; simp [getTextSimilarity, List.isEmpty_iff, ha]
      · rw [hval a b ha hb]
        constructor
        · rw [Rat.mkRat_eq_div]; positivity
        · rw [Rat.mkRat_eq_div]
          have hpos : 0 < max a.length b.length := by
            cases a with
            | nil => exact absurd rfl ha
            | cons x xs =>
              exact Nat.lt_of_lt_of_le (Nat.succ_pos xs.length) (Nat.le_max_left _ _)
          rw [div_le_one (by exact_mod_cast hpos)]
          have hle : equalCount (diffBy (fun x y => x == y) a b) ≤ max a.length b.length :=
            Nat.le_trans (equalCount_diffBy_le_left a b) (Nat.le_max_left _ _)
          exact_mod_cast hle
  · intro a ha
    constructor
    · simp [getTextSimilarity, List.isEmpty_iff, ha]
    · simp [getTextSimilarity, List.isEmpty_iff, ha]
  · intro a ha
    rw [hval a a ha ha]
    rw [diffBy_self _ (fun x => beq_self_eq_true x) a, equalCount_map_both]
    have hlen : a.length ≠ 0 := by
      cases a with
      | nil => exact absurd rfl ha
      | cons x xs => simp
    rw [Nat.max_self, Rat.mkRat_eq_div]
    push_cast
    rw [div_self]
    exact_mod_cast hlen

/-- Witness for C7 at concrete inputs: the similarity of the non-empty
string `"x"` with itself is 1, obtained from the theorem with its
hypotheses discharged. -/
theorem getTextSimilarity_spec_witness : getTextSimilarity ['x'] ['x'] = 1 :=
  getTextSimilarity_spec.2.2.2.1 ['x'] (by decide)

/-- C10: in the detailed report generator, an added or removed line whose
text is empty or whitespace-only produces no report line at all and does
not advance the corresponding 1-based line counter, so the emitted line
numbers skip blank lines on the side that gained or lost them. -/
theorem reportWalk_skips_blank_lines :
    (∀ (r : LineInfo) (rest : List (DiffItem LineInfo)) (v1 v2 : Nat),
      trimStr r.text = [] →
      reportWalk (DiffItem.ins r :: rest) v1 v2 = reportWalk rest v1 v2) ∧
    (∀ (l : LineInfo) (rest : List (DiffItem LineInfo)) (v1 v2 : Nat),
      trimStr l.text = [] →
      reportWalk (DiffItem.del l :: rest) v1 v2 = reportWalk rest v1 v2) := by
  constructor
  · intro r rest v1 v2 h
    simp [reportWalk, h]
  · intro l rest v1 v2 h
    simp [reportWalk, h]

/-- Witness for C10: a whitespace-only added line between two walks is
dropped with the counters unchanged. -/
theorem reportWalk_skips_blank_lines_witness :
    reportWalk [DiffItem.ins ⟨[' ', '\t'], ⟨false, false, false, "", ""⟩⟩] 1 1 =
      reportWalk [] 1 1 :=
  reportWalk_skips_blank_lines.1 ⟨[' ', '\t'], ⟨false, false, false, "", ""⟩⟩ [] 1 1 (by decide)

theorem areWordsEquivalent_refl (t : Str) : areWordsEquivalent t t = true := by
  simp [areWordsEquivalent]

/-- C9: an aligned text-block pair with identical text whose left block is
bold and right block is not (all other formatting attributes equal)
produces a report line with status FORMATTING-ONLY, format changes exactly
`["bold: on → off"]`, and diff markup that is the plain text with no
inline insert or delete markers. -/
theorem reportWalk_formattingOnly (l r : LineInfo) (rest : List (DiffItem LineInfo))
    (v1 v2 : Nat)
    (htext : l.text = r.text)
    (hbL : l.fmt.hasBold = true) (hbR : r.fmt.hasBold = false)
    (hi : l.fmt.hasItalic = r.fmt.hasItalic)
    (hu : l.fmt.hasUnderline = r.fmt.hasUnderline)
    (hf : l.fmt.fontSize = r.fmt.fontSize)
    (ha : l.fmt.textAlign = r.fmt.textAlign) :
    reportWalk (DiffItem.both l r :: rest) v1 v2 =
      ⟨toString v1, toString v2, RStatus.formattingOnly, [Seg.plain l.text],
        ["bold: on → off"]⟩ :: reportWalk rest (v1 + 1) (v2 + 1) ∧
    ∀ s ∈ [Seg.plain l.text], s.isMarker = false := by
  have heq : areWordsEquivalent l.text r.text = true := by
    rw [htext]; exact areWordsEquivalent_refl r.text
  have hfmt : compareFormat l.fmt r.fmt = ["bold: on → off"] := by
    simp [compareFormat, hbL, hbR, hi, hu, hf, ha, onOff]
  constructor
  · simp [reportWalk, heq, hfmt]
  · intro s hs
    simp at hs
    subst hs
    rfl

/-- Witness for C9 at a concrete pair: identical text `"Hi"`, left bold on,
right bold off. -/
theorem reportWalk_formattingOnly_witness :
    reportWalk [DiffItem.both
        (⟨['H', 'i'], ⟨true, false, false, "", ""⟩⟩ : LineInfo)
        (⟨['H', 'i'], ⟨false, false, false, "", ""⟩⟩ : LineInfo)] 1 1 =
      [⟨"1", "1", RStatus.formattingOnly, [Seg.plain ['H', 'i']], ["bold: on → off"]⟩] :=
  (reportWalk_formattingOnly
    ⟨['H', 'i'], ⟨true, false, false, "", ""⟩⟩
    ⟨['H', 'i'], ⟨false, false, false, "", ""⟩⟩ [] 1 1
    rfl rfl rfl rfl rfl rfl rfl).1

/-- C8: any error escaping the comparison body is caught at the boundary
and converted to the degraded output: both views carry the original input
content verbatim as a single equal segment, the summary is all-zero, and
the detailed report is empty. -/
theorem compareHtmlDocuments_catches (env : Env) (leftHtml rightHtml : Doc) (e : Unit)
    (herr : compareHtmlBody env leftHtml rightHtml = Except.error e) :
    compareHtmlDocuments env leftHtml rightHtml =
      { leftDiffs := [(SegType.equal, leftHtml)],
        rightDiffs := [(SegType.equal, rightHtml)],
        summary := ⟨0, 0, 0⟩,
        detailed := ⟨[], [], []⟩ } := by
  simp [compareHtmlDocuments, herr, originalContentOutput]

/-- Witness for C8: in a non-browser environment the very first plain-text
extraction throws, and the comparison returns the degraded output. -/
theorem compareHtmlDocuments_catches_witness :
    compareHtmlDocuments ⟨false⟩ [HNode.textN ['a']] [HNode.textN ['b']] =
      { leftDiffs := [(SegType.equal, [HNode.textN ['a']])],
        rightDiffs := [(SegType.equal, [HNode.textN ['b']])],
        summary := ⟨0, 0, 0⟩,
        detailed := ⟨[], [], []⟩ } :=
  compareHtmlDocuments_catches ⟨false⟩ [HNode.textN ['a']] [HNode.textN ['b']] () rfl

/-- Counterexample to C3 as stated: with one unmatched left block and two
same-tag right candidates of similarity 7/10 and 9/10 (both above 0.6), the
fuzzy pass of `alignBlocks` pairs the left block with the FIRST candidate in
right-document order, not with the maximizer, which is left over as
`added`. -/
theorem alignBlocks_fuzzy_not_maximizer :
    alignBlocks [fuzzyLeftBlock] [fuzzyRightNear, fuzzyRightBest] =
      [⟨some fuzzyLeftBlock, some fuzzyRightNear, AlignType.modified⟩,
       ⟨none, some fuzzyRightBest, AlignType.added⟩] ∧
    mkRat 3 5 < getTextSimilarity fuzzyLeftBlock.text fuzzyRightNear.text ∧
    getTextSimilarity fuzzyLeftBlock.text fuzzyRightNear.text <
      getTextSimilarity fuzzyLeftBlock.text fuzzyRightBest.text := by
  refine ⟨by decide, by decide, by decide⟩

/-- C3 amended: in the fuzzy pass, for each still-unmatched left block taken
in order, the chosen partner is the FIRST unmatched right block of the same
tag whose similarity is strictly above 0.6, taken in right-document order —
the earliest qualifying candidate rather than the similarity maximizer —
and the chosen pair is marked Modified. -/
theorem alignPass2_first_candidate (i : Nat) (b : Block) (rest : List (Nat × Block))
    (rs : List (Nat × Block)) (used : List Nat) (j : Nat) (rb : Block)
    (hfind : rs.find? (fuzzyCand used b) = some (j, rb)) :
    (alignPass2 ((i, b) :: rest) rs used).1 =
      ⟨some b, some rb, AlignType.modified⟩ :: (alignPass2 rest rs (j :: used)).1 ∧
    used.contains j = false ∧
    b.tagName = rb.tagName ∧
    mkRat 3 5 < getTextSimilarity b.text rb.text ∧
    ∃ pre post, rs = pre ++ (j, rb) :: post ∧
      ∀ q ∈ pre, fuzzyCand used b q = false := by
  have hspec := List.find?_eq_some.mp hfind
  obtain ⟨hpred, pre, post, hsplit, hfail⟩ := hspec
  have hcand := hpred
  simp only [fuzzyCand, Bool.and_eq_true, Bool.not_eq_true', beq_iff_eq,
    decide_eq_true_eq] at hcand
  obtain ⟨⟨hunused, htag⟩, hsim⟩ := hcand
  refine ⟨by simp [alignPass2, hfind], hunused, htag, hsim, pre, post, hsplit, ?_⟩
  intro q hq
  have := hfail q hq
  simpa using this

/-- Witness for the amended C3 at the concrete candidates: the pass output
pairs the left block with the earliest above-threshold candidate. -/
theorem alignPass2_first_candidate_witness :
    (alignPass2 [(0, fuzzyLeftBlock)] [(0, fuzzyRightNear), (1, fuzzyRightBest)] []).1 =
      ⟨some fuzzyLeftBlock, some fuzzyRightNear, AlignType.modified⟩ ::
        (alignPass2 [] [(0, fuzzyRightNear), (1, fuzzyRightBest)] [0]).1 :=
  (alignPass2_first_candidate 0 fuzzyLeftBlock [] [(0, fuzzyRightNear), (1, fuzzyRightBest)]
    [] 0 fuzzyRightNear (by decide)).1

/-- Counterexample to C4 as stated: in the part_000 table stage, a matched
table pair whose single row has two differing cells credits TWO additions
and TWO deletions to the stage summary (`compareTableContents` counts per
differing cell, and per missing row or cell), not exactly one of each. -/
theorem applyMutualTableComparison_counts_per_cell :
    applyMutualTableComparisonSummary [[[['a'], ['b']]]] [[[['x'], ['y']]]] = ⟨2, 2⟩ ∧
    compareTableContents [[['a'], ['b']]] [[['x'], ['y']]] = (2, 2) ∧
    ¬ applyMutualTableComparisonSummary [[[['a'], ['b']]]] [[[['x'], ['y']]]] = ⟨1, 1⟩ := by
  refine ⟨by decide, by decide, by decide⟩

/-- C4 amended: in the positional element pipeline
(`performMutualElementComparison`), the summary is the positional sum of
per-pair contributions, and a matched table pair contributes exactly one
addition and one deletion when its contents differ in any way — independent
of how many rows or cells differ — and nothing when they are equal.  In the
part_000 alignment pipeline, by contrast, `compareTableContents` credits one
addition and one deletion per differing cell (see the counterexample). -/
theorem performMutualElementComparison_table_pair_once :
    (∀ leftElements rightElements : List Positional.Elem,
      (Positional.performMutualElementComparison leftElements rightElements).2.2.additions =
        ((zipAll leftElements rightElements).map
          fun p => (Positional.mutualStep p.1 p.2).2.2.1).sum ∧
      (Positional.performMutualElementComparison leftElements rightElements).2.2.deletions =
        ((zipAll leftElements rightElements).map
          fun p => (Positional.mutualStep p.1 p.2).2.2.2).sum) ∧
    (∀ l r : Positional.Elem, l.isTable = true → r.isTable = true →
      (Positional.compareTableContent l.content r.content = false →
        (Positional.mutualStep (some l) (some r)).2.2.1 = 1 ∧
        (Positional.mutualStep (some l) (some r)).2.2.2 = 1) ∧
      (Positional.compareTableContent l.content r.content = true →
        (Positional.mutualStep (some l) (some r)).2.2.1 = 0 ∧
        (Positional.mutualStep (some l) (some r)).2.2.2 = 0)) := by
  constructor
  · intro leftElements rightElements
    constructor <;>
      simp only [Positional.performMutualElementComparison, List.map_map,
        Function.comp_def]
  · intro l r hl hr
    constructor
    · intro hneq
      simp [Positional.mutualStep, hl, hr, hneq]
    · intro heq
      simp [Positional.mutualStep, hl, hr, heq, Positional.plainProc]

/-- Witness for the amended C4: a matched table pair with two differing
cells contributes exactly one addition and one deletion in the positional
pipeline. -/
theorem performMutualElementComparison_table_pair_once_witness :
    (Positional.mutualStep (some tableElemL) (some tableElemR)).2.2.1 = 1 ∧
    (Positional.mutualStep (some tableElemL) (some tableElemR)).2.2.2 = 1 :=
  (performMutualElementComparison_table_pair_once.2 tableElemL tableElemR rfl rfl).1 (by decide)

/-- Counterexample to C6 as stated: in the part_000 image stage, a
positionally matched image pair with identical `src` but different `alt`
text is left completely unmarked (status unchanged, zero counts), although
the claim requires any difference in either attribute to mark both images
Modified. -/
theorem applyMutualImageComparison_ignores_alt :
    applyMutualImageComparison [⟨['s'], ['a']⟩] [⟨['s'], ['b']⟩] =
      ([ImgPairStatus.unchanged], ⟨0, 0⟩) ∧
    (⟨['s'], ['a']⟩ : Img).alt ≠ (⟨['s'], ['b']⟩ : Img).alt := by
  refine ⟨by decide, by decide⟩

/-- C6 amended: only the positional element pipeline
(`performMutualElementComparison`) compares matched images by source
identifier AND alt text — there a pair is unmarked exactly when both agree
and both sides are marked Modified (one addition, one deletion) otherwise.
The part_000 image stage and the detailed-report image sections compare the
source identifier alone: alt-only differences leave the pair Equal. -/
theorem image_pair_equality_semantics :
    (∀ l r : Positional.Elem, l.isImage = true → r.isImage = true →
      l.isTable = false → r.isTable = false →
      (((Positional.mutualStep (some l) (some r)).1.highlight = Positional.Highlight.none ∧
        (Positional.mutualStep (some l) (some r)).2.1.highlight = Positional.Highlight.none) ↔
        (Positional.contentSrc l.content = Positional.contentSrc r.content ∧
          Positional.contentAlt l.content = Positional.contentAlt r.content)) ∧
      (¬(Positional.contentSrc l.content = Positional.contentSrc r.content ∧
          Positional.contentAlt l.content = Positional.contentAlt r.content) →
        (Positional.mutualStep (some l) (some r)).1.highlight = Positional.Highlight.modified ∧
        (Positional.mutualStep (some l) (some r)).2.1.highlight = Positional.Highlight.modified ∧
        (Positional.mutualStep (some l) (some r)).2.2 = (1, 1))) ∧
    (∀ li ri : Img,
      (imgPairStatus (some li) (some ri) = ImgPairStatus.modified ↔ ¬ li.src = ri.src) ∧
      (imgPairStatus (some li) (some ri) = ImgPairStatus.unchanged ↔ li.src = ri.src)) ∧
    (∀ (i : Nat) (l r : Positional.Elem), l.isImage = true → r.isImage = true →
      Positional.imageReportStep i (some l) (some r) =
        [⟨i + 1, if Positional.contentSrc l.content == Positional.contentSrc r.content
          then RStatus.unchanged else RStatus.modified⟩]) := by
  refine ⟨?_, ?_, ?_⟩
  · intro l r hli hri hlt hrt
    by_cases heq : Positional.contentSrc l.content = Positional.contentSrc r.content ∧
        Positional.contentAlt l.content = Positional.contentAlt r.content
    · obtain ⟨h1, h2⟩ := heq
      constructor
      · simp [Positional.mutualStep, hli, hri, hlt, hrt, h1, h2, Positional.plainProc]
      · intro hne
        exact absurd ⟨h1, h2⟩ hne
    · have hbeq : (Positional.contentSrc l.content == Positional.contentSrc r.content &&
          (Positional.contentAlt l.content == Positional.contentAlt r.content)) = false := by
        rcases not_and_or.mp heq with h | h
        · simp [Bool.and_eq_false_iff, beq_eq_false_iff_ne, h]
        · simp [Bool.and_eq_false_iff, beq_eq_false_iff_ne, h]
      constructor
      · constructor
        · intro hcontr
          rcases hcontr with ⟨hL, _⟩
          simp [Positional.mutualStep, hli, hri, hlt, hrt, hbeq] at hL
        · intro hc
          exact absurd hc heq
      · intro _
        refine ⟨?_, ?_, ?_⟩ <;>
          simp [Positional.mutualStep, hli, hri, hlt, hrt, hbeq]
  · intro li ri
    by_cases h : li.src = ri.src
    · constructor
      · simp [imgPairStatus, h]
      · simp [imgPairStatus, h]
    · constructor
      · simp [imgPairStatus, h]
      · simp [imgPairStatus, h]
  · intro i l r hli hri
    simp [Positional.imageReportStep, hli, hri]

/-- Witness for the amended C6: in the positional pipeline an alt-only
difference marks both sides Modified. -/
theorem image_pair_equality_semantics_witness :
    (Positional.mutualStep (some imageElemL) (some imageElemR)).1.highlight =
      Positional.Highlight.modified ∧
    (Positional.mutualStep (some imageElemL) (some imageElemR)).2.1.highlight =
      Positional.Highlight.modified ∧
    (Positional.mutualStep (some imageElemL) (some imageElemR)).2.2 = (1, 1) :=
  ((image_pair_equality_semantics.1 imageElemL imageElemR rfl rfl rfl rfl).2 (by decide))

theorem areTextsEqual_refl (t : Str) : areTextsEqual t t = true := by
  simp [areTextsEqual]

theorem find?_append_of_none {α : Type} (p : α → Bool) (xs ys : List α)
    (hx : ∀ x ∈ xs, p x = false) :
    (xs ++ ys).find? p = ys.find? p := by
  induction xs with
  | nil => rfl
  | cons x rest ih =>
    have hpx : p x = false := hx x (List.mem_cons_self _ _)
    rw [List.cons_append, List.find?_cons_of_neg _ (by simp [hpx])]
    exact ih fun a ha => hx a (List.mem_cons_of_mem _ ha)

theorem exactCand_self (used : List Nat) (b : Block) (i : Nat)
    (hc : used.contains i = false) : exactCand used b (i, b) = true := by
  have hnm : i ∉ used := by simpa using hc
  simp [exactCand, hnm, areTextsEqual_refl]

/-- The exact pass of `alignBlocks` applied to identical block lists matches
every left block with the right block at the same position: processing the
suffix of the enumeration starting at `i` with exactly the positions below
`i` used pairs each remaining block with itself. -/
theorem alignPass1_self_aux :
    ∀ (tl : List Block) (i : Nat) (used : List Nat) (bs : List Block),
      bs.length = i + tl.length →
      bs.drop i = tl →
      (∀ j : Nat, used.contains j = decide (j < i)) →
      (alignPass1 (List.enumFrom i tl) bs.enum used).1 =
          tl.map (fun b => ⟨some b, some b, AlignType.equal⟩) ∧
      (alignPass1 (List.enumFrom i tl) bs.enum used).2.1 = [] ∧
      (∀ j : Nat, (alignPass1 (List.enumFrom i tl) bs.enum used).2.2.contains j
          = decide (j < bs.length)) := by
  intro tl
  induction tl with
  | nil =>
    intro i used bs hlen hdrop hused
    have hbs : bs.length = i := by simpa using hlen
    refine ⟨by simp [List.enumFrom_nil, alignPass1],
      by simp [List.enumFrom_nil, alignPass1], ?_⟩
    intro j
    rw [List.enumFrom_nil]
    simp only [alignPass1]
    rw [hused j, hbs]
  | cons b tl' ih =>
    intro i used bs hlen hdrop hused
    have hi : i < bs.length := by rw [hlen, List.length_cons]; omega
    have htake : (bs.take i).length = i := by
      rw [List.length_take]
      omega
    have hsplit : bs.enum = List.enumFrom 0 (bs.take i) ++ List.enumFrom i (b :: tl') := by
      have hb : bs = bs.take i ++ (b :: tl') := by
        conv_lhs => rw [← List.take_append_drop i bs]
        rw [hdrop]
      calc bs.enum = List.enumFrom 0 (bs.take i ++ (b :: tl')) := by rw [← hb]; rfl
        _ = List.enumFrom 0 (bs.take i) ++
              List.enumFrom (0 + (bs.take i).length) (b :: tl') := by
            rw [List.enumFrom_append]
        _ = List.enumFrom 0 (bs.take i) ++ List.enumFrom i (b :: tl') := by
            rw [htake, Nat.zero_add]
    have hfail : ∀ x ∈ List.enumFrom 0 (bs.take i), exactCand used b x = false := by
      intro x hx
      obtain ⟨k, blk⟩ := x
      have hk := List.mem_enumFrom hx
      have hklt : k < i := by
        have h2 := hk.2.1
        omega
      have hkm : k ∈ used := by
        have h2 := hused k
        have h3 : decide (k < i) = true := by simpa using hklt
        rw [h3] at h2
        simpa using h2
      simp [exactCand, hkm]
    have hselfcand : exactCand used b (i, b) = true := by
      apply exactCand_self
      rw [hused i]
      simp
    have hfind : (bs.enum).find? (exactCand used b) = some (i, b) := by
      rw [hsplit, find?_append_of_none _ _ _ hfail, List.enumFrom_cons]
      exact List.find?_cons_of_pos _ hselfcand
    have hused' : ∀ j : Nat, ((i :: used).contains j) = decide (j < i + 1) := by
      intro j
      by_cases hj : j = i
      · subst hj
        simp [List.contains_cons]
      · have hstep : (i :: used).contains j = used.contains j := by
          simp [List.contains_cons, hj]
        rw [hstep, hused j]
        exact decide_eq_decide.mpr (by omega)
    have hdrop' : bs.drop (i + 1) = tl' := by
      have h2 := List.tail_drop bs i
      rw [hdrop] at h2
      simpa using h2.symm
    have hlen' : bs.length = (i + 1) + tl'.length := by
      rw [hlen, List.length_cons]
      omega
    have ihres := ih (i + 1) (i :: used) bs hlen' hdrop' hused'
    refine ⟨?_, ?_, ?_⟩
    · rw [List.enumFrom_cons]
      simp only [alignPass1, hfind]
      rw [ihres.1]
      rfl
    · rw [List.enumFrom_cons]
      simp only [alignPass1, hfind]
      exact ihres.2.1
    · intro j
      rw [List.enumFrom_cons]
      simp only [alignPass1, hfind]
      exact ihres.2.2 j

theorem alignBlocks_self_eq (bs : List Block) :
    alignBlocks bs bs = List.insertionSort (fun e1 e2 => alignKey e1 ≤ alignKey e2)
      (bs.map fun b => (⟨some b, some b, AlignType.equal⟩ : AlignEntry)) := by
  have haux := alignPass1_self_aux bs 0 [] bs (by simp) (by simp) (by intro j; simp)
  have henum : List.enumFrom 0 bs = bs.enum := rfl
  rw [henum] at haux
  obtain ⟨h1, h2, h3⟩ := haux
  have hadded : (bs.enum.filter
      fun p => !((alignPass1 bs.enum bs.enum []).2.2.contains p.1)) = [] := by
    rw [List.filter_eq_nil_iff]
    intro p hp
    obtain ⟨j, blk⟩ := p
    have hj := List.mem_enumFrom (show (j, blk) ∈ List.enumFrom 0 bs from hp)
    have hjlt : j < bs.length := by
      have h4 := hj.2.1
      omega
    rw [h3 j]
    simp [hjlt]
  simp only [alignBlocks, alignmentUnsorted]
  rw [h1, h2]
  simp only [alignPass2]
  rw [hadded]
  simp

/-- C2: comparing a document with itself is the identity — aligning
identical block lists yields only Equal entries and a block summary with
zero additions and deletions, and the pipeline detects full-document
equality up front (or degrades to the same shape without a browser
environment), short-circuits, and returns both views as the original input
content verbatim with an all-zero summary and an empty detailed report. -/
theorem align_identity_and_shortcircuit :
    (∀ bs : List Block,
      (∀ e ∈ alignBlocks bs bs, e.type = AlignType.equal) ∧
      blockSummaryOf (alignBlocks bs bs) = ⟨0, 0⟩) ∧
    (∀ (env : Env) (leftHtml rightHtml : Doc),
      trimStr (docText leftHtml) = trimStr (docText rightHtml) →
      compareHtmlDocuments env leftHtml rightHtml =
        { leftDiffs := [(SegType.equal, leftHtml)],
          rightDiffs := [(SegType.equal, rightHtml)],
          summary := ⟨0, 0, 0⟩, detailed := ⟨[], [], []⟩ }) := by
  constructor
  · intro bs
    constructor
    · intro e he
      rw [alignBlocks_self_eq] at he
      rw [List.mem_insertionSort] at he
      obtain ⟨b, _, rfl⟩ := List.mem_map.mp he
      rfl
    · rw [alignBlocks_self_eq]
      have hperm := List.perm_insertionSort
        (fun e1 e2 => alignKey e1 ≤ alignKey e2)
        (bs.map fun b => (⟨some b, some b, AlignType.equal⟩ : AlignEntry))
      simp only [blockSummaryOf, hperm.countP_eq]
      have hz : ∀ (p : AlignEntry → Bool),
          (∀ b : Block, p ⟨some b, some b, AlignType.equal⟩ = false) →
          List.countP p (bs.map fun b =>
            (⟨some b, some b, AlignType.equal⟩ : AlignEntry)) = 0 := by
        intro p hp
        rw [List.countP_eq_zero]
        intro a ha
        obtain ⟨b, _, rfl⟩ := List.mem_map.mp ha
        simp [hp b]
      rw [hz _ (fun b => rfl), hz _ (fun b => rfl)]
  · intro env leftHtml rightHtml h
    have hbeq : (trimStr (docText leftHtml) == trimStr (docText rightHtml)) = true :=
      beq_iff_eq.mpr h
    obtain ⟨hd⟩ := env
    cases hd with
    | true =>
      simp [compareHtmlDocuments, compareHtmlBody, extractPlainTextE, hbeq, h,
        originalContentOutput, Bind.bind, Except.bind, Pure.pure, Except.pure]
    | false =>
      simp [compareHtmlDocuments, compareHtmlBody, extractPlainTextE,
        originalContentOutput, Bind.bind, Except.bind, Pure.pure, Except.pure]

/-- Witness for C2: a concrete one-paragraph document compared with itself
short-circuits to the verbatim zero-change output, and its self-alignment
summary is zero. -/
theorem align_identity_and_shortcircuit_witness :
    compareHtmlDocuments ⟨true⟩
        [HNode.elemN "p" ⟨"", ""⟩ [HNode.textN ['h', 'i']]]
        [HNode.elemN "p" ⟨"", ""⟩ [HNode.textN ['h', 'i']]] =
      { leftDiffs := [(SegType.equal, [HNode.elemN "p" ⟨"", ""⟩ [HNode.textN ['h', 'i']]])],
        rightDiffs := [(SegType.equal, [HNode.elemN "p" ⟨"", ""⟩ [HNode.textN ['h', 'i']]])],
        summary := ⟨0, 0, 0⟩, detailed := ⟨[], [], []⟩ } ∧
    blockSummaryOf (alignBlocks [⟨['h', 'i'], "p", 0⟩] [⟨['h', 'i'], "p", 0⟩]) = ⟨0, 0⟩ :=
  ⟨align_identity_and_shortcircuit.2 ⟨true⟩ _ _ rfl,
    (align_identity_and_shortcircuit.1 [⟨['h', 'i'], "p", 0⟩]).2⟩

theorem alignPass1_entries_shape :
    ∀ (ls rs : List (Nat × Block)) (used : List Nat),
      ∀ e ∈ (alignPass1 ls rs used).1,
        ∃ b rb : Block, e = ⟨some b, some rb, AlignType.equal⟩ := by
  intro ls
  induction ls with
  | nil => intro rs used e he; simp [alignPass1] at he
  | cons p rest ih =>
    intro rs used e he
    obtain ⟨i, b⟩ := p
    cases hfind : rs.find? (exactCand used b) with
    | some q =>
      simp only [alignPass1, hfind] at he
      rcases List.mem_cons.mp he with rfl | he2
      · exact ⟨b, q.2, rfl⟩
      · exact ih rs (q.1 :: used) e he2
    | none =>
      simp only [alignPass1, hfind] at he
      exact ih rs used e he

theorem alignPass2_entries_shape :
    ∀ (ls rs : List (Nat × Block)) (used : List Nat),
      ∀ e ∈ (alignPass2 ls rs used).1,
        ∃ b rb : Block, e = ⟨some b, some rb, AlignType.modified⟩ := by
  intro ls
  induction ls with
  | nil => intro rs used e he; simp [alignPass2] at he
  | cons p rest ih =>
    intro rs used e he
    obtain ⟨i, b⟩ := p
    cases hfind : rs.find? (fuzzyCand used b) with
    | some q =>
      simp only [alignPass2, hfind] at he
      rcases List.mem_cons.mp he with rfl | he2
      · exact ⟨b, q.2, rfl⟩
      · exact ih rs (q.1 :: used) e he2
    | none =>
      simp only [alignPass2, hfind] at he
      exact ih rs used e he

theorem alignPass1_lefts :
    ∀ (ls rs : List (Nat × Block)) (used : List Nat),
      ((alignPass1 ls rs used).1.filterMap AlignEntry.left ++
        ((alignPass1 ls rs used).2.1.map Prod.snd)).Perm (ls.map Prod.snd) := by
  intro ls
  induction ls with
  | nil => intro rs used; simp [alignPass1]
  | cons p rest ih =>
    intro rs used
    obtain ⟨i, b⟩ := p
    cases hfind : rs.find? (exactCand used b) with
    | some q =>
      simp only [alignPass1, hfind, List.filterMap_cons, List.map_cons]
      exact List.Perm.cons b (ih rs (q.1 :: used))
    | none =>
      simp only [alignPass1, hfind, List.map_cons]
      exact List.Perm.trans List.perm_middle (List.Perm.cons b (ih rs used))

theorem alignPass2_lefts :
    ∀ (ls rs : List (Nat × Block)) (used : List Nat),
      ((alignPass2 ls rs used).1.filterMap AlignEntry.left ++
        ((alignPass2 ls rs used).2.1.map Prod.snd)).Perm (ls.map Prod.snd) := by
  intro ls
  induction ls with
  | nil => intro rs used; simp [alignPass2]
  | cons p rest ih =>
    intro rs used
    obtain ⟨i, b⟩ := p
    cases hfind : rs.find? (fuzzyCand used b) with
    | some q =>
      simp only [alignPass2, hfind, List.filterMap_cons, List.map_cons]
      exact List.Perm.cons b (ih rs (q.1 :: used))
    | none =>
      simp only [alignPass2, hfind, List.map_cons]
      exact List.Perm.trans List.perm_middle (List.Perm.cons b (ih rs used))

theorem alignPass1_used :
    ∀ (ls rs : List (Nat × Block)) (used : List Nat),
      ∃ ps : List (Nat × Block),
        (alignPass1 ls rs used).2.2 = ps.map Prod.fst ++ used ∧
        (∀ p ∈ ps, p ∈ rs) ∧
        (ps.map Prod.fst).Nodup ∧
        (∀ p ∈ ps, p.1 ∉ used) ∧
        ((alignPass1 ls rs used).1.filterMap AlignEntry.right).Perm (ps.map Prod.snd) := by
  intro ls
  induction ls with
  | nil =>
    intro rs used
    exact ⟨[], by simp [alignPass1], by simp, by simp, by simp, by simp [alignPass1]⟩
  | cons p rest ih =>
    intro rs used
    obtain ⟨i, b⟩ := p
    cases hfind : rs.find? (exactCand used b) with
    | some q =>
      obtain ⟨j, rb⟩ := q
      have hmem : (j, rb) ∈ rs := List.mem_of_find?_eq_some hfind
      have hpred : exactCand used b (j, rb) = true := List.find?_some hfind
      have hjnot : j ∉ used := by
        simp only [exactCand, Bool.and_eq_true, Bool.not_eq_true'] at hpred
        simpa using hpred.1.1
      obtain ⟨ps', heq, hsub, hnd, hdis, hperm⟩ := ih rs (j :: used)
      refine ⟨ps' ++ [(j, rb)], ?_, ?_, ?_, ?_, ?_⟩
      · simp only [alignPass1, hfind]
        rw [heq]
        simp
      · intro x hx
        rcases List.mem_append.mp hx with hx1 | hx2
        · exact hsub x hx1
        · rw [List.mem_singleton.mp hx2]; exact hmem
      · have hjps : j ∉ ps'.map Prod.fst := by
          intro hj
          obtain ⟨x, hx, hfst⟩ := List.mem_map.mp hj
          have := hdis x hx
          rw [hfst] at this
          exact this (List.mem_cons_self _ _)
        rw [List.map_append]
        simp only [List.map_cons, List.map_nil]
        rw [List.nodup_append]
        exact ⟨hnd, List.nodup_singleton j, by simpa using hjps⟩
      · intro x hx
        rcases List.mem_append.mp hx with hx1 | hx2
        · have := hdis x hx1
          exact fun hm => this (List.mem_cons_of_mem _ hm)
        · rw [List.mem_singleton.mp hx2]
          exact hjnot
      · simp only [alignPass1, hfind, List.filterMap_cons]
        rw [List.map_append]
        simp only [List.map_cons, List.map_nil]
        exact List.Perm.trans (List.Perm.cons rb hperm)
          (List.perm_append_singleton rb (ps'.map Prod.snd)).symm
    | none =>
      obtain ⟨ps', heq, hsub, hnd, hdis, hperm⟩ := ih rs used
      refine ⟨ps', ?_, hsub, hnd, hdis, ?_⟩
      · simp only [alignPass1, hfind]
        exact heq
      · simp only [alignPass1, hfind]
        exact hperm

theorem alignPass2_used :
    ∀ (ls rs : List (Nat × Block)) (used : List Nat),
      ∃ ps : List (Nat × Block),
        (alignPass2 ls rs used).2.2 = ps.map Prod.fst ++ used ∧
        (∀ p ∈ ps, p ∈ rs) ∧
        (ps.map Prod.fst).Nodup ∧
        (∀ p ∈ ps, p.1 ∉ used) ∧
        ((alignPass2 ls rs used).1.filterMap AlignEntry.right).Perm (ps.map Prod.snd) := by
  intro ls
  induction ls with
  | nil =>
    intro rs used
    exact ⟨[], by simp [alignPass2], by simp, by simp, by simp, by simp [alignPass2]⟩
  | cons p rest ih =>
    intro rs used
    obtain ⟨i, b⟩ := p
    cases hfind : rs.find? (fuzzyCand used b) with
    | some q =>
      obtain ⟨j, rb⟩ := q
      have hmem : (j, rb) ∈ rs := List.mem_of_find?_eq_some hfind
      have hpred : fuzzyCand used b (j, rb) = true := List.find?_some hfind
      have hjnot : j ∉ used := by
        simp only [fuzzyCand, Bool.and_eq_true, Bool.not_eq_true'] at hpred
        simpa using hpred.1.1
      obtain ⟨ps', heq, hsub, hnd, hdis, hperm⟩ := ih rs (j :: used)
      refine ⟨ps' ++ [(j, rb)], ?_, ?_, ?_, ?_, ?_⟩
      · simp only [alignPass2, hfind]
        rw [heq]
        simp
      · intro x hx
        rcases List.mem_append.mp hx with hx1 | hx2
        · exact hsub x hx1
        · rw [List.mem_singleton.mp hx2]; exact hmem
      · have hjps : j ∉ ps'.map Prod.fst := by
          intro hj
          obtain ⟨x, hx, hfst⟩ := List.mem_map.mp hj
          have := hdis x hx
          rw [hfst] at this
          exact this (List.mem_cons_self _ _)
        rw [List.map_append]
        simp only [List.map_cons, List.map_nil]
        rw [List.nodup_append]
        exact ⟨hnd, List.nodup_singleton j, by simpa using hjps⟩
      · intro x hx
        rcases List.mem_append.mp hx with hx1 | hx2
        · have := hdis x hx1
          exact fun hm => this (List.mem_cons_of_mem _ hm)
        · rw [List.mem_singleton.mp hx2]
          exact hjnot
      · simp only [alignPass2, hfind, List.filterMap_cons]
        rw [List.map_append]
        simp only [List.map_cons, List.map_nil]
        exact List.Perm.trans (List.Perm.cons rb hperm)
          (List.perm_append_singleton rb (ps'.map Prod.snd)).symm
    | none =>
      obtain ⟨ps', heq, hsub, hnd, hdis, hperm⟩ := ih rs used
      refine ⟨ps', ?_, hsub, hnd, hdis, ?_⟩
      · simp only [alignPass2, hfind]
        exact heq
      · simp only [alignPass2, hfind]
        exact hperm

theorem perm_cons_erase_beq {α : Type} [BEq α] [LawfulBEq α] {a : α} {l : List α}
    (h : a ∈ l) : l.Perm (a :: l.erase a) := by
  induction l with
  | nil => cases h
  | cons x t ih =>
    by_cases hxa : (x == a) = true
    · have hx : x = a := eq_of_beq hxa
      subst hx
      rw [List.erase_cons_head]
    · rw [List.erase_cons_tail (by simpa using hxa)]
      have hat : a ∈ t := by
        rcases List.mem_cons.mp h with h1 | h1
        · exact absurd (by simp [h1]) hxa
        · exact h1
      exact List.Perm.trans (List.Perm.cons x (ih hat)) (List.Perm.swap a x _)

theorem filter_key_mem_perm :
    ∀ (rs m : List (Nat × Block)),
      (rs.map Prod.fst).Nodup → (m.map Prod.fst).Nodup → (∀ p ∈ m, p ∈ rs) →
      (rs.filter fun p => decide (p.1 ∈ m.map Prod.fst)).Perm m := by
  intro rs
  induction rs with
  | nil =>
    intro m _ _ hsub
    cases m with
    | nil => simp
    | cons q m' => exact absurd (hsub q (List.mem_cons_self _ _)) (List.not_mem_nil q)
  | cons x rs' ih =>
    intro m hrs hm hsub
    have hxnot : x.1 ∉ rs'.map Prod.fst := by
      rw [List.map_cons] at hrs
      exact (List.nodup_cons.mp hrs).1
    have hrs' : (rs'.map Prod.fst).Nodup := by
      rw [List.map_cons] at hrs
      exact (List.nodup_cons.mp hrs).2
    by_cases hx : x.1 ∈ m.map Prod.fst
    · obtain ⟨q, hqm, hqfst⟩ := List.mem_map.mp hx
      have hxq : x = q := by
        rcases List.mem_cons.mp (hsub q hqm) with h | h
        · exact h.symm
        · exfalso
          apply hxnot
          rw [← hqfst]
          exact List.mem_map_of_mem Prod.fst h
      subst hxq
      have hmnd : m.Nodup := List.Nodup.of_map Prod.fst hm
      have hxem : x ∉ m.erase x := List.Nodup.not_mem_erase hmnd
      have hm' : ((m.erase x).map Prod.fst).Nodup :=
        List.Nodup.sublist ((List.erase_sublist x m).map Prod.fst) hm
      have hsub' : ∀ p ∈ m.erase x, p ∈ rs' := by
        intro p hp
        have hpm : p ∈ m := List.mem_of_mem_erase hp
        rcases List.mem_cons.mp (hsub p hpm) with h | h
        · exfalso; rw [h] at hp; exact hxem hp
        · exact h
      have hcongr : (rs'.filter fun p => decide (p.1 ∈ m.map Prod.fst)) =
          rs'.filter fun p => decide (p.1 ∈ (m.erase x).map Prod.fst) := by
        apply List.filter_congr
        intro p hp
        have hpx : p.1 ≠ x.1 := by
          intro hcontra
          apply hxnot
          rw [← hcontra]
          exact List.mem_map_of_mem Prod.fst hp
        simp only [decide_eq_decide]
        constructor
        · intro hpm
          obtain ⟨q, hqm, hqfst⟩ := List.mem_map.mp hpm
          have hqx : q ≠ x := by
            intro hcontra
            rw [hcontra] at hqfst
            exact hpx hqfst.symm
          exact hqfst ▸ List.mem_map_of_mem Prod.fst
            ((List.Nodup.mem_erase_iff hmnd).mpr ⟨hqx, hqm⟩)
        · intro hpm
          obtain ⟨q, hqm, hqfst⟩ := List.mem_map.mp hpm
          exact hqfst ▸ List.mem_map_of_mem Prod.fst (List.mem_of_mem_erase hqm)
      have hfx : (decide (x.1 ∈ m.map Prod.fst)) = true := by simpa using hx
      have hstep : ((x :: rs').filter fun p => decide (p.1 ∈ m.map Prod.fst)) =
          x :: rs'.filter fun p => decide (p.1 ∈ m.map Prod.fst) := by
        simp only [List.filter_cons, hfx]
        rfl
      rw [hstep, hcongr]
      exact List.Perm.trans (List.Perm.cons x (ih (m.erase x) hrs' hm' hsub'))
        (perm_cons_erase_beq hqm).symm
    · have hxm : x ∉ m := fun hxmem =>
        hx (List.mem_map_of_mem Prod.fst hxmem)
      have hsub' : ∀ p ∈ m, p ∈ rs' := by
        intro p hp
        rcases List.mem_cons.mp (hsub p hp) with h | h
        · exfalso; rw [h] at hp; exact hxm hp
        · exact h
      have hfx : (decide (x.1 ∈ m.map Prod.fst)) = false := by simpa using hx
      have hstep : ((x :: rs').filter fun p => decide (p.1 ∈ m.map Prod.fst)) =
          rs'.filter fun p => decide (p.1 ∈ m.map Prod.fst) := by
        simp only [List.filter_cons, hfx]
        rfl
      rw [hstep]
      exact ih m hrs' hm hsub'

theorem filterMap_left_removedE (un : List (Nat × Block)) :
    ((un.map fun q => (⟨some q.2, none, AlignType.removed⟩ : AlignEntry)).filterMap
      AlignEntry.left) = un.map Prod.snd := by
  induction un with
  | nil => rfl
  | cons q rest ih => simp [ih]

theorem filterMap_left_addedE (ps : List (Nat × Block)) :
    ((ps.map fun p => (⟨none, some p.2, AlignType.added⟩ : AlignEntry)).filterMap
      AlignEntry.left) = [] := by
  induction ps with
  | nil => rfl
  | cons q rest ih => simp [ih]

theorem filterMap_right_removedE (un : List (Nat × Block)) :
    ((un.map fun q => (⟨some q.2, none, AlignType.removed⟩ : AlignEntry)).filterMap
      AlignEntry.right) = [] := by
  induction un with
  | nil => rfl
  | cons q rest ih => simp [ih]

theorem filterMap_right_addedE (ps : List (Nat × Block)) :
    ((ps.map fun p => (⟨none, some p.2, AlignType.added⟩ : AlignEntry)).filterMap
      AlignEntry.right) = ps.map Prod.snd := by
  induction ps with
  | nil => rfl
  | cons q rest ih => simp [ih]

theorem alignmentUnsorted_lefts (leftBlocks rightBlocks : List Block) :
    ((alignmentUnsorted leftBlocks rightBlocks).filterMap AlignEntry.left).Perm
      leftBlocks := by
  simp only [alignmentUnsorted]
  rw [List.filterMap_append, List.filterMap_append, List.filterMap_append,
    filterMap_left_removedE, filterMap_left_addedE, List.append_nil,
    List.append_assoc]
  have hP2 := alignPass2_lefts (alignPass1 leftBlocks.enum rightBlocks.enum []).2.1
    rightBlocks.enum (alignPass1 leftBlocks.enum rightBlocks.enum []).2.2
  have hP1 := alignPass1_lefts leftBlocks.enum rightBlocks.enum []
  have hstep := List.Perm.append_left
    ((alignPass1 leftBlocks.enum rightBlocks.enum []).1.filterMap AlignEntry.left) hP2
  have hfinal := List.Perm.trans hstep hP1
  have henum : leftBlocks.enum.map Prod.snd = leftBlocks := List.enum_map_snd leftBlocks
  rwa [henum] at hfinal

theorem alignmentUnsorted_rights (leftBlocks rightBlocks : List Block) :
    ((alignmentUnsorted leftBlocks rightBlocks).filterMap AlignEntry.right).Perm
      rightBlocks := by
  obtain ⟨ps, hu1, hps_sub, hps_nd, _, hps_perm⟩ :=
    alignPass1_used leftBlocks.enum rightBlocks.enum []
  obtain ⟨qs, hu2, hqs_sub, hqs_nd, hqs_dis, hqs_perm⟩ :=
    alignPass2_used (alignPass1 leftBlocks.enum rightBlocks.enum []).2.1
      rightBlocks.enum (alignPass1 leftBlocks.enum rightBlocks.enum []).2.2
  rw [List.append_nil] at hu1
  have hm_sub : ∀ p ∈ ps ++ qs, p ∈ rightBlocks.enum := by
    intro p hp
    rcases List.mem_append.mp hp with h | h
    · exact hps_sub p h
    · exact hqs_sub p h
  have hm_nd : ((ps ++ qs).map Prod.fst).Nodup := by
    rw [List.map_append, List.nodup_append]
    refine ⟨hps_nd, hqs_nd, ?_⟩
    intro a ha hb
    obtain ⟨q, hq, hqf⟩ := List.mem_map.mp hb
    have := hqs_dis q hq
    rw [hu1, hqf] at this
    exact this ha
  have hrs_nd : (rightBlocks.enum.map Prod.fst).Nodup := by
    rw [List.enum_map_fst]
    exact List.nodup_range _
  have hkey : ∀ p : Nat × Block,
      (!((alignPass2 (alignPass1 leftBlocks.enum rightBlocks.enum []).2.1
          rightBlocks.enum (alignPass1 leftBlocks.enum rightBlocks.enum []).2.2).2.2.contains
            p.1)) =
        !(decide (p.1 ∈ (ps ++ qs).map Prod.fst)) := by
    intro p
    rw [hu2, hu1]
    simp only [List.map_append]
    have : (p.1 ∈ qs.map Prod.fst ++ ps.map Prod.fst) ↔
        (p.1 ∈ ps.map Prod.fst ++ qs.map Prod.fst) := by
      simp only [List.mem_append]
      exact Or.comm
    simp [this]
  have hfilter_eq : (rightBlocks.enum.filter
      fun p => !((alignPass2 (alignPass1 leftBlocks.enum rightBlocks.enum []).2.1
        rightBlocks.enum (alignPass1 leftBlocks.enum rightBlocks.enum []).2.2).2.2.contains
          p.1)) =
      rightBlocks.enum.filter fun p => !(decide (p.1 ∈ (ps ++ qs).map Prod.fst)) :=
    List.filter_congr fun p _ => hkey p
  have hmatched := filter_key_mem_perm rightBlocks.enum (ps ++ qs) hrs_nd hm_nd hm_sub
  have hpart := List.filter_append_perm
    (fun p => decide (p.1 ∈ (ps ++ qs).map Prod.fst)) rightBlocks.enum
  simp only [alignmentUnsorted]
  rw [List.filterMap_append, List.filterMap_append, List.filterMap_append,
    filterMap_right_removedE, filterMap_right_addedE, List.append_nil, hfilter_eq]
  have h12 : ((alignPass1 leftBlocks.enum rightBlocks.enum []).1.filterMap
        AlignEntry.right ++
      (alignPass2 (alignPass1 leftBlocks.enum rightBlocks.enum []).2.1 rightBlocks.enum
        (alignPass1 leftBlocks.enum rightBlocks.enum []).2.2).1.filterMap
          AlignEntry.right).Perm ((ps ++ qs).map Prod.snd) := by
    rw [List.map_append]
    exact List.Perm.append hps_perm hqs_perm
  have hchain := List.Perm.append h12
    (List.Perm.refl ((rightBlocks.enum.filter
      fun p => !(decide (p.1 ∈ (ps ++ qs).map Prod.fst))).map Prod.snd))
  have hmsnd : ((ps ++ qs).map Prod.snd).Perm
      ((rightBlocks.enum.filter
        fun p => decide (p.1 ∈ (ps ++ qs).map Prod.fst)).map Prod.snd) :=
    List.Perm.map Prod.snd hmatched.symm
  have hchain2 := List.Perm.append hmsnd
    (List.Perm.refl ((rightBlocks.enum.filter
      fun p => !(decide (p.1 ∈ (ps ++ qs).map Prod.fst))).map Prod.snd))
  have hpartmap : ((rightBlocks.enum.filter
        fun p => decide (p.1 ∈ (ps ++ qs).map Prod.fst)).map Prod.snd ++
      (rightBlocks.enum.filter
        fun p => !(decide (p.1 ∈ (ps ++ qs).map Prod.fst))).map Prod.snd).Perm
      (rightBlocks.enum.map Prod.snd) := by
    rw [← List.map_append]
    exact List.Perm.map Prod.snd hpart
  have hfinal := List.Perm.trans (List.Perm.trans hchain hchain2) hpartmap
  rwa [List.enum_map_snd] at hfinal

theorem alignmentUnsorted_shape (leftBlocks rightBlocks : List Block) :
    ∀ e ∈ alignmentUnsorted leftBlocks rightBlocks,
      (∃ b rb : Block, e = ⟨some b, some rb, AlignType.equal⟩) ∨
      (∃ b rb : Block, e = ⟨some b, some rb, AlignType.modified⟩) ∨
      (∃ b : Block, e = ⟨some b, none, AlignType.removed⟩) ∨
      (∃ b : Block, e = ⟨none, some b, AlignType.added⟩) := by
  intro e he
  simp only [alignmentUnsorted] at he
  rw [List.append_assoc, List.append_assoc] at he
  rcases List.mem_append.mp he with h1 | hrest
  · exact Or.inl (alignPass1_entries_shape _ _ _ e h1)
  rcases List.mem_append.mp hrest with h2 | hrest2
  · exact Or.inr (Or.inl (alignPass2_entries_shape _ _ _ e h2))
  rcases List.mem_append.mp hrest2 with h3 | h4
  · obtain ⟨q, _, rfl⟩ := List.mem_map.mp h3
    exact Or.inr (Or.inr (Or.inl ⟨q.2, rfl⟩))
  · obtain ⟨q, _, rfl⟩ := List.mem_map.mp h4
    exact Or.inr (Or.inr (Or.inr ⟨q.2, rfl⟩))

theorem alignmentUnsorted_split (leftBlocks rightBlocks : List Block) :
    ∃ xs ys : List AlignEntry,
      alignmentUnsorted leftBlocks rightBlocks = xs ++ ys ∧
      (∀ e ∈ xs, e.left.isSome = true) ∧ (∀ e ∈ ys, e.left = none) := by
  refine ⟨(alignPass1 leftBlocks.enum rightBlocks.enum []).1 ++
      (alignPass2 (alignPass1 leftBlocks.enum rightBlocks.enum []).2.1 rightBlocks.enum
        (alignPass1 leftBlocks.enum rightBlocks.enum []).2.2).1 ++
      ((alignPass2 (alignPass1 leftBlocks.enum rightBlocks.enum []).2.1 rightBlocks.enum
        (alignPass1 leftBlocks.enum rightBlocks.enum []).2.2).2.1.map
          fun q => (⟨some q.2, none, AlignType.removed⟩ : AlignEntry)),
    (rightBlocks.enum.filter
      fun p => !((alignPass2 (alignPass1 leftBlocks.enum rightBlocks.enum []).2.1
        rightBlocks.enum (alignPass1 leftBlocks.enum rightBlocks.enum []).2.2).2.2.contains
          p.1)).map fun p => (⟨none, some p.2, AlignType.added⟩ : AlignEntry),
    ?_, ?_, ?_⟩
  · simp only [alignmentUnsorted]
  · intro e he
    rw [List.append_assoc] at he
    rcases List.mem_append.mp he with h1 | hrest
    · obtain ⟨b, rb, rfl⟩ := alignPass1_entries_shape _ _ _ e h1
      rfl
    rcases List.mem_append.mp hrest with h2 | h3
    · obtain ⟨b, rb, rfl⟩ := alignPass2_entries_shape _ _ _ e h2
      rfl
    · obtain ⟨q, _, rfl⟩ := List.mem_map.mp h3
      rfl
  · intro e he
    obtain ⟨q, _, rfl⟩ := List.mem_map.mp he
    rfl

theorem pairwise_of_filter_eq {α : Type} (keyf : α → Nat) (q : α → α → Prop)
    (l : List α) (h : ∀ k : Nat, (l.filter fun e => keyf e == k).Pairwise q) :
    l.Pairwise fun a b => keyf a = keyf b → q a b := by
  induction l with
  | nil => exact List.Pairwise.nil
  | cons a t ih =>
    constructor
    · intro b hb hkey
      have hka := h (keyf a)
      have hfa : ((a :: t).filter fun e => keyf e == keyf a) =
          a :: (t.filter fun e => keyf e == keyf a) :=
        List.filter_cons_of_pos (by simp)
      rw [hfa] at hka
      have hbf : b ∈ t.filter fun e => keyf e == keyf a :=
        List.mem_filter.mpr ⟨hb, by simp [hkey]⟩
      exact (List.pairwise_cons.mp hka).1 b hbf
    · apply ih
      intro k
      have hk := h k
      by_cases hak : (keyf a == k) = true
      · have hstep : ((a :: t).filter fun e => keyf e == k) =
            a :: (t.filter fun e => keyf e == k) := List.filter_cons_of_pos hak
        rw [hstep] at hk
        exact (List.pairwise_cons.mp hk).2
      · have hstep : ((a :: t).filter fun e => keyf e == k) =
            t.filter fun e => keyf e == k := List.filter_cons_of_neg (by simpa using hak)
        rwa [hstep] at hk

/-- C5: every alignment produced by `alignBlocks` satisfies the structural
invariants — an entry has exactly one of left/right null precisely when its
kind is Added or Removed (both non-null for Equal and Modified); every left
block and every right block appears in exactly one entry (the left and
right projections are permutations of the inputs); and entries are ordered
by original position index, with a left-origin entry never following a
right-origin entry at the same position. -/
theorem alignBlocks_invariants (leftBlocks rightBlocks : List Block) :
    (∀ e ∈ alignBlocks leftBlocks rightBlocks,
      (e.type = AlignType.added → e.left = none ∧ e.right ≠ none) ∧
      (e.type = AlignType.removed → e.left ≠ none ∧ e.right = none) ∧
      ((e.type = AlignType.equal ∨ e.type = AlignType.modified) →
        e.left ≠ none ∧ e.right ≠ none) ∧
      (Xor' (e.left = none) (e.right = none) ↔
        (e.type = AlignType.added ∨ e.type = AlignType.removed))) ∧
    ((alignBlocks leftBlocks rightBlocks).filterMap AlignEntry.left).Perm leftBlocks ∧
    ((alignBlocks leftBlocks rightBlocks).filterMap AlignEntry.right).Perm rightBlocks ∧
    (alignBlocks leftBlocks rightBlocks).Pairwise
      (fun e1 e2 => alignKey e1 ≤ alignKey e2 ∧
        (alignKey e1 = alignKey e2 → ¬(e1.left = none ∧ ¬ e2.left = none))) := by
  haveI htot : IsTotal AlignEntry (fun e1 e2 => alignKey e1 ≤ alignKey e2) :=
    ⟨fun a b => Nat.le_total _ _⟩
  haveI htrans : IsTrans AlignEntry (fun e1 e2 => alignKey e1 ≤ alignKey e2) :=
    ⟨fun a b c hab hbc => Nat.le_trans hab hbc⟩
  refine ⟨?_, ?_, ?_, ?_⟩
  · intro e he
    have hemem : e ∈ alignmentUnsorted leftBlocks rightBlocks := by
      simp only [alignBlocks] at he
      exact (List.mem_insertionSort _).mp he
    rcases alignmentUnsorted_shape leftBlocks rightBlocks e hemem with
      ⟨b, rb, rfl⟩ | ⟨b, rb, rfl⟩ | ⟨b, rfl⟩ | ⟨b, rfl⟩ <;>
      refine ⟨by simp, by simp, by simp, by simp [Xor']⟩
  · simp only [alignBlocks]
    exact List.Perm.trans
      (List.Perm.filterMap AlignEntry.left (List.perm_insertionSort _ _))
      (alignmentUnsorted_lefts leftBlocks rightBlocks)
  · simp only [alignBlocks]
    exact List.Perm.trans
      (List.Perm.filterMap AlignEntry.right (List.perm_insertionSort _ _))
      (alignmentUnsorted_rights leftBlocks rightBlocks)
  · have hsorted := List.sorted_insertionSort
      (fun e1 e2 => alignKey e1 ≤ alignKey e2)
      (alignmentUnsorted leftBlocks rightBlocks)
    have hstab : (alignBlocks leftBlocks rightBlocks).Pairwise
        (fun e1 e2 => alignKey e1 = alignKey e2 →
          ¬(e1.left = none ∧ ¬ e2.left = none)) := by
      apply pairwise_of_filter_eq alignKey
      intro k
      have hfeq : ((alignBlocks leftBlocks rightBlocks).filter
          fun e => alignKey e == k) =
          ((alignmentUnsorted leftBlocks rightBlocks).filter
            fun e => alignKey e == k) := by
        have hpw : ((alignmentUnsorted leftBlocks rightBlocks).filter
            fun e => alignKey e == k).Pairwise
              (fun e1 e2 => alignKey e1 ≤ alignKey e2) := by
          apply List.pairwise_of_forall_mem_list
          intro a ha b hb
          have hka : alignKey a = k := by
            simpa using (List.mem_filter.mp ha).2
          have hkb : alignKey b = k := by
            simpa using (List.mem_filter.mp hb).2
          rw [hka, hkb]
        have hsub : ((alignmentUnsorted leftBlocks rightBlocks).filter
            fun e => alignKey e == k).Sublist (alignBlocks leftBlocks rightBlocks) := by
          simp only [alignBlocks]
          exact List.sublist_insertionSort hpw (List.filter_sublist _)
        have hself : (((alignmentUnsorted leftBlocks rightBlocks).filter
            fun e => alignKey e == k).filter fun e => alignKey e == k) =
            ((alignmentUnsorted leftBlocks rightBlocks).filter
              fun e => alignKey e == k) :=
          List.filter_eq_self.mpr fun a ha => (List.mem_filter.mp ha).2
        have hsub2 : ((alignmentUnsorted leftBlocks rightBlocks).filter
            fun e => alignKey e == k).Sublist
              ((alignBlocks leftBlocks rightBlocks).filter
                fun e => alignKey e == k) := by
          have h2 := List.Sublist.filter (fun e => alignKey e == k) hsub
          rwa [hself] at h2
        have hpermf : ((alignBlocks leftBlocks rightBlocks).filter
            fun e => alignKey e == k).Perm
              ((alignmentUnsorted leftBlocks rightBlocks).filter
                fun e => alignKey e == k) := by
          simp only [alignBlocks]
          exact List.Perm.filter _ (List.perm_insertionSort _ _)
        exact (List.Sublist.eq_of_length hsub2 hpermf.length_eq.symm).symm
      rw [hfeq]
      obtain ⟨xs, ys, hxy, hxs, hys⟩ := alignmentUnsorted_split leftBlocks rightBlocks
      rw [hxy, List.filter_append, List.pairwise_append]
      refine ⟨?_, ?_, ?_⟩
      · apply List.pairwise_of_forall_mem_list
        intro a ha b hb hcontra
        have hsome : a.left.isSome = true := hxs a (List.mem_of_mem_filter ha)
        rw [hcontra.1] at hsome
        cases hsome
      · apply List.pairwise_of_forall_mem_list
        intro a ha b hb hcontra
        exact hcontra.2 (hys b (List.mem_of_mem_filter hb))
      · intro a ha b hb hcontra
        have hsome : a.left.isSome = true := hxs a (List.mem_of_mem_filter ha)
        rw [hcontra.1] at hsome
        cases hsome
    have hsorted2 : (alignBlocks leftBlocks rightBlocks).Pairwise
        (fun e1 e2 => alignKey e1 ≤ alignKey e2) := by
      simp only [alignBlocks]
      exact hsorted
    exact List.Pairwise.and hsorted2 hstab

/-- Witness for C5 at a concrete input: in the alignment of one left block
against no right blocks, the single entry is `removed` with a present left
and a null right. -/
theorem alignBlocks_invariants_witness :
    (⟨some ⟨['a'], "p", 0⟩, none, AlignType.removed⟩ : AlignEntry).left ≠ none ∧
    (⟨some ⟨['a'], "p", 0⟩, none, AlignType.removed⟩ : AlignEntry).right = none :=
  ((alignBlocks_invariants [⟨['a'], "p", 0⟩] []).1
    ⟨some ⟨['a'], "p", 0⟩, none, AlignType.removed⟩ (by decide)).2.1 rfl
